import Mathlib

/-!
# Verification of the melon-fire WatermelonDB/Firestore sync engine

This development is a shallow embedding of `src/index.ts`: the Firestore
backend is modelled as an explicit `Store` value, asynchronous code by
explicit state passing, and the single-threaded JavaScript event loop by
the order in which state updates are applied.  All counters in the source
are small, so `Nat` is used for integers.  Thrown exceptions are modelled
with `Except`/`Option Err`.
-/

namespace MelonFire

/-- A row/document.  WatermelonDB's `DirtyRaw` rows and the stored table
documents share this shape: a logical `id`, an opaque `data` payload
standing for all application fields, and the optional internal fields
`_status`, `_changed`, `melonFireChange` and `melonFireRevision`.  An
absent field is `none`, mirroring JavaScript's `delete obj.f`. -/
structure Rec where
  id : String
  data : String
  status : Option String
  changed : Option String
  melonFireChange : Option String
  melonFireRevision : Option Nat
deriving DecidableEq, Repr

/-! ## Id codec: `encodeURIComponent` / `decodeURIComponent` -/

/-- Characters `encodeURIComponent` leaves unescaped (ECMA-262:
alphanumeric and `- _ . ! ~ * ' ( )`; `Char.ofNat 39` is the apostrophe). -/
def uriUnreserved (c : Char) : Bool :=
  c.isAlphanum || c == '-' || c == '_' || c == '.' || c == '!' || c == '~' ||
    c == '*' || c == Char.ofNat 39 || c == '(' || c == ')'

/-- UTF-8 encoding of one scalar value as byte values. -/
def utf8Bytes (c : Char) : List Nat :=
  let n := c.toNat
  if n < 128 then [n]
  else if n < 2048 then [192 + n / 64, 128 + n % 64]
  else if n < 65536 then [224 + n / 4096, 128 + n / 64 % 64, 128 + n % 64]
  else [240 + n / 262144, 128 + n / 4096 % 64, 128 + n / 64 % 64, 128 + n % 64]

/-- Uppercase hexadecimal digit, as `encodeURIComponent` emits. -/
def hexDigit (n : Nat) : Char :=
  if n < 10 then Char.ofNat (48 + n) else Char.ofNat (55 + n)

def percentEscape (b : Nat) : List Char :=
  ['%', hexDigit (b / 16), hexDigit (b % 16)]

/-- JavaScript `encodeURIComponent`. -/
def encodeURIComponent (s : String) : String :=
  String.mk (s.data.flatMap fun c =>
    if uriUnreserved c then [c] else (utf8Bytes c).flatMap percentEscape)

def hexVal (c : Char) : Option Nat :=
  if 48 ≤ c.toNat ∧ c.toNat ≤ 57 then some (c.toNat - 48)
  else if 65 ≤ c.toNat ∧ c.toNat ≤ 70 then some (c.toNat - 55)
  else if 97 ≤ c.toNat ∧ c.toNat ≤ 102 then some (c.toNat - 87)
  else none

/-- First decoding pass: each `%XX` escape becomes a byte (`Sum.inr`),
every other character stays (`Sum.inl`).  A `%` not followed by two hex
digits is the `URIError` case. -/
def percentTokens : List Char → Option (List (Sum Char Nat))
  | [] => some []
  | '%' :: c1 :: c2 :: rest =>
    match hexVal c1, hexVal c2 with
    | some h, some l => (percentTokens rest).map (Sum.inr (16 * h + l) :: ·)
    | _, _ => none
  | '%' :: _ => none
  | c :: rest => (percentTokens rest).map (Sum.inl c :: ·)

/-- Strict UTF-8 decoding of a byte run (rejects truncated sequences,
overlong encodings, surrogates and out-of-range values, as the ECMA-262
Decode algorithm does). -/
def utf8Decode : List Nat → Option (List Char)
  | [] => some []
  | b :: rest =>
    if b < 128 then (utf8Decode rest).map (Char.ofNat b :: ·)
    else if 192 ≤ b ∧ b < 224 then
      match rest with
      | b2 :: rest2 =>
        if 128 ≤ b2 ∧ b2 < 192 then
          let n := (b - 192) * 64 + (b2 - 128)
          if 128 ≤ n then (utf8Decode rest2).map (Char.ofNat n :: ·) else none
        else none
      | [] => none
    else if 224 ≤ b ∧ b < 240 then
      match rest with
      | b2 :: b3 :: rest2 =>
        if (128 ≤ b2 ∧ b2 < 192) ∧ (128 ≤ b3 ∧ b3 < 192) then
          let n := (b - 224) * 4096 + (b2 - 128) * 64 + (b3 - 128)
          if 2048 ≤ n ∧ ¬(55296 ≤ n ∧ n ≤ 57343) then
            (utf8Decode rest2).map (Char.ofNat n :: ·)
          else none
        else none
      | _ => none
    else if 240 ≤ b ∧ b < 248 then
      match rest with
      | b2 :: b3 :: b4 :: rest2 =>
        if (128 ≤ b2 ∧ b2 < 192) ∧ (128 ≤ b3 ∧ b3 < 192) ∧ (128 ≤ b4 ∧ b4 < 192) then
          let n := (b - 240) * 262144 + (b2 - 128) * 4096 + (b3 - 128) * 64 + (b4 - 128)
          if 65536 ≤ n ∧ n < 1114112 then (utf8Decode rest2).map (Char.ofNat n :: ·)
          else none
        else none
      | _ => none
    else none

/-- Second decoding pass: turn maximal byte runs into characters.
`pending` accumulates the current run in reverse. -/
def tokensDecode (pending : List Nat) : List (Sum Char Nat) → Option (List Char)
  | [] => utf8Decode pending.reverse
  | Sum.inl c :: rest =>
    match utf8Decode pending.reverse, tokensDecode [] rest with
    | some cs, some cs2 => some (cs ++ c :: cs2)
    | _, _ => none
  | Sum.inr b :: rest => tokensDecode (b :: pending) rest

/-- JavaScript `decodeURIComponent`; `none` models the thrown `URIError`. -/
def decodeURIComponent (s : String) : Option String :=
  match percentTokens s.data with
  | none => none
  | some toks => (tokensDecode [] toks).map String.mk

/-! ## The remote store -/

/-- Where a table document lives: directly under the base document, or
under a side-batch document in the `melonBatches` collection. -/
inductive Area where
  | root
  | batch (token : String)
deriving DecidableEq, Repr

/-- The full path of a table document. -/
structure Loc where
  area : Area
  table : String
  key : String
deriving DecidableEq, Repr

/-- The base document (`MelonFireBaseDoc`); any field may be absent. -/
structure RootDoc where
  melonLatestRevision : Option Nat
  melonLatestDate : Option String
  melonBatchTokens : Option (List (Nat × String))
deriving DecidableEq, Repr

/-- A side-batch base document (`MelonBatchDoc`), present only once its
integrate transaction has written it. -/
structure BatchDoc where
  melonLatestRevision : Option Nat
  melonLatestDate : Option String
  deletes : List (String × List String)
deriving DecidableEq, Repr

/-- A document of the `melonDeletes` collection (`DeleteRecord`). -/
structure DeleteRecord where
  revision : Nat
  deletes : List (String × List String)
deriving DecidableEq, Repr

/-- The remote store.  `docs` holds every table document keyed by full
path; `batchDocs` holds the side-batch base documents that have actually
been written (a `collection().get()` returns exactly those), and
`deleteRecs` the `melonDeletes` collection. -/
structure Store where
  rootDoc : Option RootDoc
  docs : List (Loc × Rec)
  batchDocs : List (String × BatchDoc)
  deleteRecs : List DeleteRecord
deriving DecidableEq, Repr

def emptyStore : Store := ⟨none, [], [], []⟩

/-- Association-list lookup (JavaScript object property read). -/
def alook {κ β : Type} [DecidableEq κ] : List (κ × β) → κ → Option β
  | [], _ => none
  | (k1, v) :: rest, k => if k1 = k then some v else alook rest k

/-- Association-list write (JavaScript object property write: overwrite in
place, or append a new key). -/
def aput {κ β : Type} [DecidableEq κ] : List (κ × β) → κ → β → List (κ × β)
  | [], k, v => [(k, v)]
  | (k1, v1) :: rest, k, v =>
    if k1 = k then (k, v) :: rest else (k1, v1) :: aput rest k v

def Store.getDoc (s : Store) (l : Loc) : Option Rec := alook s.docs l

def Store.setDoc (s : Store) (l : Loc) (r : Rec) : Store :=
  {s with docs := aput s.docs l r}

def Store.delDoc (s : Store) (l : Loc) : Store :=
  {s with docs := s.docs.filter (fun p => decide (p.1 ≠ l))}

/-- All documents of one table collection (key, record). -/
def Store.colDocs (s : Store) (a : Area) (t : String) : List (String × Rec) :=
  s.docs.filterMap (fun p =>
    if p.1.area = a ∧ p.1.table = t then some (p.1.key, p.2) else none)

/-! ## Shared helpers from the source -/

/-- `removeWatermelonInternals`: `delete obj._status; delete obj._changed`. -/
def removeWatermelonInternals (r : Rec) : Rec :=
  {r with status := none, changed := none}

/-- `removeMelonFields`:
`delete record.melonFireChange; delete record.melonFireRevision`. -/
def removeMelonFields (r : Rec) : Rec :=
  {r with melonFireChange := none, melonFireRevision := none}

/-- `revisionFromBaseSnap`: `existingDoc?.melonLatestRevision ? ... + 1 :
MIN_REVISION`, with JavaScript truthiness sending a stored `0` to
`MIN_REVISION = 1`; also returns `existingDoc?.melonBatchTokens`. -/
def revisionFromBaseSnap (root : Option RootDoc) : Nat × Option (List (Nat × String)) :=
  match root with
  | none => (1, none)
  | some rd =>
    match rd.melonLatestRevision with
    | none => (1, rd.melonBatchTokens)
    | some r => (if r = 0 then 1 else r + 1, rd.melonBatchTokens)

/-- One table's part of a WatermelonDB changeset. -/
structure TableChanges where
  created : List Rec
  updated : List Rec
  deleted : List String
deriving DecidableEq, Repr

abbrev Changes := List (String × TableChanges)

/-- `SyncPushArgs`. -/
structure PushParams where
  lastPulledAt : Nat
  changes : Changes
deriving DecidableEq, Repr

/-- Failure modes.  `uriError` is a thrown `URIError` from
`decodeURIComponent`; `invalidArgument` is Firestore rejecting a
`batch.delete` argument that is not a `DocumentReference`;
`committedBatch` is a write queued on a `WriteBatch` whose `commit()` has
already been called; `jsError` is a property access on `undefined`
(unreachable from well-formed stores). -/
inductive Err where
  | outOfSync
  | integrateFailed
  | invalidArgument
  | committedBatch
  | uriError
  | jsError
deriving DecidableEq, Repr

/-! ## Pull -/

/-- One table's entry of the `ChangeLoadMap`: both maps are keyed by
decoded ids, in JavaScript property-insertion order. -/
structure TableMap where
  updated : List (String × Rec)
  deleted : List String
deriving DecidableEq, Repr

abbrev ChangeMap := List (String × TableMap)

def revOf (p : String × Rec) : Nat := p.2.melonFireRevision.getD 0

/-- Range predicate of the Firestore query
`where("melonFireRevision", ">=", start).where("melonFireRevision", "<", stop)`;
documents lacking the indexed field never match. -/
def inRevRange (start stop : Nat) (p : String × Rec) : Bool :=
  p.2.melonFireRevision.isSome && decide (start ≤ revOf p) && decide (revOf p < stop)

/-- `orderBy("melonFireRevision")`: ascending revision with Firestore's
implicit document-key tie-break. -/
def docLe (p q : String × Rec) : Prop :=
  revOf p < revOf q ∨ (revOf p = revOf q ∧ p.1 ≤ q.1)

instance : DecidableRel docLe := fun p q => by
  unfold docLe; infer_instance

instance : IsTotal (String × Rec) docLe := by
  constructor
  intro a b
  rcases Nat.lt_trichotomy (revOf a) (revOf b) with h | h | h
  · exact Or.inl (Or.inl h)
  · rcases le_total a.1 b.1 with h2 | h2
    · exact Or.inl (Or.inr ⟨h, h2⟩)
    · exact Or.inr (Or.inr ⟨h.symm, h2⟩)
  · exact Or.inr (Or.inl h)

instance : IsTrans (String × Rec) docLe := by
  constructor
  intro a b c hab hbc
  rcases hab with h1 | ⟨h1, h1b⟩ <;> rcases hbc with h2 | ⟨h2, h2b⟩
  · exact Or.inl (h1.trans h2)
  · exact Or.inl (h2 ▸ h1)
  · exact Or.inl (h1 ▸ h2)
  · exact Or.inr ⟨h1.trans h2, h1b.trans h2b⟩

def sortDocs (l : List (String × Rec)) : List (String × Rec) :=
  List.insertionSort docLe l

/-- The `refs.docs.forEach` body of `mergeCreatesAndUpdates`: strip the
legacy internals from each returned document and overwrite the per-id
entry, keyed by `decodeURIComponent(rec.id)` (decode failure throws). -/
def mergeDocs (u : List (String × Rec)) : List (String × Rec) → Except Err (List (String × Rec))
  | [] => .ok u
  | p :: rest =>
    let r := removeMelonFields (removeWatermelonInternals p.2)
    match decodeURIComponent r.id with
    | none => .error .uriError
    | some k => mergeDocs (aput u k r) rest

/-- One table of `mergeCreatesAndUpdates`: range query, ascending order,
then the overwrite fold. -/
def mergeTable (docs : List (String × Rec)) (start stop : Nat)
    (u : List (String × Rec)) : Except Err (List (String × Rec)) :=
  mergeDocs u (sortDocs (docs.filter (inRevRange start stop)))

/-- `mergeCreatesAndUpdates` over the requested tables. -/
def mergeAllTables (s : Store) (a : Area) (start stop : Nat) :
    List String → ChangeMap → Except Err ChangeMap
  | [], cm => .ok cm
  | t :: rest, cm =>
    match alook cm t with
    | none => .error .jsError
    | some tm =>
      match mergeTable (s.colDocs a t) start stop tm.updated with
      | .error e => .error e
      | .ok u2 => mergeAllTables s a start stop rest (aput cm t {tm with updated := u2})

/-- `changeMap[table].deleted[k] = true`. -/
def markDeleted (tm : TableMap) (k : String) : TableMap :=
  {tm with deleted := if tm.deleted.contains k then tm.deleted else tm.deleted ++ [k]}

def applyTableDeletes (cm : ChangeMap) (t : String) : List String → Except Err ChangeMap
  | [] => .ok cm
  | i :: rest =>
    match alook cm t with
    | none => .error .jsError
    | some tm =>
      match decodeURIComponent i with
      | none => .error .uriError
      | some k => applyTableDeletes (aput cm t (markDeleted tm k)) t rest

/-- Mark every id of a `deletes` mapping (side-batch or `DeleteRecord`)
as deleted, decoding each stored (encoded) id. -/
def applyDeletes (cm : ChangeMap) : List (String × List String) → Except Err ChangeMap
  | [] => .ok cm
  | (t, ids) :: rest =>
    match applyTableDeletes cm t ids with
    | .error e => .error e
    | .ok cm2 => applyDeletes cm2 rest

def applyDeleteRecs (cm : ChangeMap) : List DeleteRecord → Except Err ChangeMap
  | [] => .ok cm
  | r :: rest =>
    match applyDeletes cm r.deletes with
    | .error e => .error e
    | .ok cm2 => applyDeleteRecs cm2 rest

/-- `batchTokens?.hasOwnProperty(end.toString())`. -/
def hasToken (bt : Option (List (Nat × String))) (r : Nat) : Bool :=
  match bt with
  | none => false
  | some l => (alook l r).isSome

/-- The inner `while` of `pullChanges`: advance `end` over contiguous
root-stored revisions.  Fuel-driven; callers supply sufficient fuel. -/
def advanceEnd (bt : Option (List (Nat × String))) (stop : Nat) : Nat → Nat → Nat
  | 0, e => e
  | fuel + 1, e =>
    if ¬hasToken bt e ∧ e < stop then advanceEnd bt stop fuel (e + 1) else e

def seedMap (tables : List String) : ChangeMap :=
  tables.map (fun t => (t, ⟨[], []⟩))

/-- The outer `while (start < endRevision)` loop of `pullChanges`:
root-stored revisions are pulled in contiguous clumps, each side-batch
revision on its own. -/
def pullLoop (s : Store) (tables : List String) (bt : Option (List (Nat × String)))
    (stop : Nat) : Nat → Nat → ChangeMap → Except Err ChangeMap
  | 0, _, cm => .ok cm
  | fuel + 1, start, cm =>
    if start < stop then
      let e := advanceEnd bt stop stop start
      if e = start then
        match (match bt with | none => none | some l => alook l start) with
        | none => .error .jsError
        | some token =>
          match mergeAllTables s (.batch token) start (start + 1) tables cm with
          | .error err => .error err
          | .ok cm2 =>
            match alook s.batchDocs token with
            | none => .error .jsError
            | some bd =>
              match applyDeletes cm2 bd.deletes with
              | .error err => .error err
              | .ok cm3 => pullLoop s tables bt stop fuel (start + 1) cm3
      else
        match mergeAllTables s .root start e tables cm with
        | .error err => .error err
        | .ok cm2 =>
          match applyDeleteRecs cm2 (s.deleteRecs.filter fun r =>
              decide (start ≤ r.revision) && decide (r.revision < e)) with
          | .error err => .error err
          | .ok cm3 => pullLoop s tables bt stop fuel e cm3
    else .ok cm

/-- `SyncPullResult`. -/
structure PullResult where
  changes : Changes
  timestamp : Nat
deriving DecidableEq, Repr

/-- The final changeset assembly of `pullChanges`: `created = []`,
`updated` drops rows whose `id` is a deleted key, `deleted` is the key
set of the deleted map. -/
def assembleTable (tm : TableMap) : TableChanges :=
  { created := []
    updated := (tm.updated.map Prod.snd).filter (fun row => !(tm.deleted.contains row.id))
    deleted := tm.deleted }

/-- `pullChanges`. -/
def pullChanges (tables : List String) (s : Store) (lastPulledAt : Option Nat) :
    Except Err PullResult :=
  let startRevision := match lastPulledAt with | none => 1 | some r => r
  let md := revisionFromBaseSnap s.rootDoc
  match pullLoop s tables md.2 md.1 (md.1 + 1) startRevision (seedMap tables) with
  | .error e => .error e
  | .ok cm =>
    .ok { changes := tables.map (fun t => (t, assembleTable ((alook cm t).getD ⟨[], []⟩)))
          timestamp := md.1 }

/-! ## Push: delete-reference discovery and the planner -/

/-- `DeleteRef`: a discovered document reference plus the url-encoded id. -/
structure DeleteRef where
  ref : Loc
  id : String
deriving DecidableEq, Repr

abbrev AllDeleteRefs := List (String × List DeleteRef)

/-- One `baseDoc.collection(table).doc(encodeURIComponent(id)).get()` of
`findDeleteRefs`: a `DeleteRef` (with the stored id re-encoded) when the
document exists. -/
def baseDeleteRef (s : Store) (t : String) (i : String) : Option DeleteRef :=
  match s.getDoc ⟨.root, t, encodeURIComponent i⟩ with
  | some r => some ⟨⟨.root, t, encodeURIComponent i⟩, encodeURIComponent r.id⟩
  | none => none

/-- The per-id lookups of one deleted id across every existing (written)
side-batch document. -/
def batchDeleteRefs (s : Store) (t : String) (i : String) : List DeleteRef :=
  s.batchDocs.filterMap (fun b =>
    match s.getDoc ⟨.batch b.1, t, encodeURIComponent i⟩ with
    | some r => some ⟨⟨.batch b.1, t, encodeURIComponent i⟩, encodeURIComponent r.id⟩
    | none => none)

/-- `findDeleteRefs` for one table: the base-document hits first, then the
hits in every side-batch, ids outer and batches inner, exactly as the
promises are created. -/
def findDeleteRefsTable (s : Store) (t : String) (deletedIds : List String) : List DeleteRef :=
  deletedIds.filterMap (baseDeleteRef s t) ++ deletedIds.flatMap (batchDeleteRefs s t)

/-- `findDeleteRefs`: a table gets an entry only when at least one
reference was discovered. -/
def findDeleteRefs (s : Store) (changes : Changes) : AllDeleteRefs :=
  changes.foldl (fun acc p =>
    let l := findDeleteRefsTable s p.1 p.2.deleted
    if l.isEmpty then acc else acc ++ [(p.1, l)]) []

/-- `countChanges(changes, deleteCount)`. -/
def countChanges (changes : Changes) (deleteCount : Nat) : Nat :=
  (changes.map (fun p => p.2.created.length + p.2.updated.length)).foldl (· + ·) 0 +
    (if deleteCount > 0 then deleteCount + 1 else 0)

/-! ## Inline push -/

/-- Result of a push call: the store, the caller-visible `params.changes`
object after the call (the source mutates rows in place on one path), and
the error, if one was thrown. -/
structure PushResult where
  store : Store
  changesAfter : Changes
  err : Option Err
deriving DecidableEq, Repr

/-- `new Date().toISOString()`, opaque in this model. -/
def nowDate : String := "now"

/-- `storeRawInTrans`: spread-copy the raw row, stamp `melonFireRevision`,
strip the Watermelon internals from the copy, and `set` the document at
`baseDoc/<table>/<encodedId>`. -/
def storeRawInTrans (s : Store) (t : String) (revision : Nat) (raw : Rec) : Store :=
  let rec0 := removeWatermelonInternals {raw with melonFireRevision := some revision}
  s.setDoc ⟨.root, t, encodeURIComponent rec0.id⟩ rec0

/-- One table of the `pushAllChanges` transaction body: creates, then
updates, then the discovered delete refs (also recording `tableDeletes`). -/
def pushTableInline (s : Store) (revision : Nat) (delRefs : AllDeleteRefs)
    (tds : List (String × List String)) (p : String × TableChanges) :
    Store × List (String × List String) :=
  let s1 := (p.2.created ++ p.2.updated).foldl
    (fun st raw => storeRawInTrans st p.1 revision raw) s
  match alook delRefs p.1 with
  | none => (s1, tds)
  | some refs =>
    (refs.foldl (fun st dr => st.delDoc dr.ref) s1, tds ++ [(p.1, refs.map (·.id))])

/-- `pushAllChanges`: the single-transaction (inline) push. -/
def pushAllChanges (s : Store) (params : PushParams) (delRefs : AllDeleteRefs) : PushResult :=
  let revision := (revisionFromBaseSnap s.rootDoc).1
  if revision ≠ params.lastPulledAt then
    { store := s, changesAfter := params.changes, err := some .outOfSync }
  else
    let step := params.changes.foldl
      (fun acc p => pushTableInline acc.1 revision delRefs acc.2 p) (s, [])
    let s2 := if step.2.isEmpty then step.1
      else {step.1 with deleteRecs := step.1.deleteRecs ++ [⟨revision, step.2⟩]}
    let newRoot : RootDoc :=
      match s2.rootDoc with
      | none => ⟨some revision, some nowDate, none⟩
      | some rd =>
        {rd with melonLatestRevision := some revision, melonLatestDate := some nowDate}
    { store := {s2 with rootDoc := some newRoot}
      changesAfter := params.changes
      err := none }

/-! ## The Batch Writer -/

inductive WOp where
  | set (l : Loc) (r : Rec)
  | del (l : Loc)
deriving DecidableEq, Repr

def applyOp (s : Store) : WOp → Store
  | .set l r => s.setDoc l r
  | .del l => s.delDoc l

def applyOps (s : Store) (ops : List WOp) : Store := ops.foldl applyOp s

/-- `BatchWriter` state: the bound side-batch token, the revision stamp,
the operations queued on the current `WriteBatch` object, the running
count, and whether `commit()` has already been called on the current
`WriteBatch` object. -/
structure BW where
  doc : String
  revision : Nat
  pend : List WOp
  count : Nat
  curCommitted : Bool
deriving DecidableEq, Repr

def BW.init (doc : String) (revision : Nat) : BW := ⟨doc, revision, [], 0, false⟩

/-- Queue one operation: a Firestore `WriteBatch` throws on any operation
once its `commit()` has been called. -/
def BW.queue (bw : BW) (op : WOp) : Except Err BW :=
  if bw.curCommitted then .error .committedBatch
  else .ok {bw with pend := bw.pend ++ [op]}

/-- An awaited `flushBatch()`: commit the current batch (applying its
queued operations) and install a fresh batch with the counter reset. -/
def BW.flushBatch (bw : BW) (s : Store) : Except Err (BW × Store) :=
  if bw.curCommitted then .error .committedBatch
  else .ok ({bw with pend := [], count := 0, curCommitted := false}, applyOps s bw.pend)

/-- `bumpCount()`: increment, and flush (awaited) on reaching 500. -/
def BW.bumpCount (bw : BW) (s : Store) : Except Err (BW × Store) :=
  let bw2 := {bw with count := bw.count + 1}
  if bw2.count = 500 then bw2.flushBatch s else .ok (bw2, s)

/-- `write(table, rec)`: `set` at `doc/<table>/<encodedId>` with the
revision stamped, then `bumpCount`. -/
def BW.write (bw : BW) (s : Store) (t : String) (r : Rec) : Except Err (BW × Store) :=
  let l : Loc := ⟨.batch bw.doc, t, encodeURIComponent r.id⟩
  let data : Rec := {r with melonFireRevision := some bw.revision}
  match bw.queue (.set l data) with
  | .error e => .error e
  | .ok bw2 => bw2.bumpCount s

def BW.created (bw : BW) (s : Store) (t : String) (r : Rec) : Except Err (BW × Store) :=
  bw.write s t r

def BW.updated (bw : BW) (s : Store) (t : String) (r : Rec) : Except Err (BW × Store) :=
  bw.write s t r

/-- The un-awaited `this.flushBatch()` in the block loop of `deleted`:
`commit()` runs synchronously (committing the queued operations and
flagging the batch object), but the continuation that would install a
fresh batch and reset the counter cannot run until the surrounding
synchronous loop has finished.  A second call on an already-committed
batch yields a rejected promise that nothing observes. -/
def BW.commitStart (bw : BW) (s : Store) : BW × Store :=
  if bw.curCommitted then (bw, s)
  else ({bw with curCommitted := true}, applyOps s bw.pend)

def BW.queueDeletes (bw : BW) : List Loc → Except Err BW
  | [] => .ok bw
  | l :: rest =>
    match bw.queue (.del l) with
    | .error e => .error e
    | .ok bw2 => bw2.queueDeletes rest

/-- `for (iBlock = 0; iBlock < len / 500 + 1; iBlock++)` with JavaScript
float division: the number of iterations the loop performs. -/
def blockIters (len : Nat) : Nat :=
  len / 500 + 1 + (if len % 500 = 0 then 0 else 1)

def sliceBlock {α : Type} (l : List α) (i : Nat) : List α :=
  (l.drop (i * 500)).take 500

/-- The synchronous block loop inside `deleted` (runs after the awaited
flush of the filled batch). -/
def BW.delBlocks (restRefs : List Loc) : Nat → Nat → BW → Store → Except Err (BW × Store)
  | 0, _, bw, s => .ok (bw, s)
  | n + 1, i, bw, s =>
    let block := sliceBlock restRefs i
    match bw.queueDeletes block with
    | .error e => .error e
    | .ok bw2 =>
      let bw3 := {bw2 with count := bw2.count + block.length}
      if bw3.count = 500 then
        let bs := bw3.commitStart s
        BW.delBlocks restRefs n (i + 1) bs.1 bs.2
      else BW.delBlocks restRefs n (i + 1) bw3 s

/-- `deleted(refs)`: fill the current batch, flush it (awaited) if full,
then run the block loop.  After the synchronous loop, the deferred
continuation of any un-awaited `flushBatch` runs at the next suspension
point, installing a fresh batch and resetting the counter. -/
def BW.deleted (bw : BW) (s : Store) (refs : List Loc) : Except Err (BW × Store) :=
  let headCount := min refs.length (500 - bw.count)
  match bw.queueDeletes (refs.take headCount) with
  | .error e => .error e
  | .ok bw1 =>
    let bw2 := {bw1 with count := bw1.count + headCount}
    let restRefs := refs.drop headCount
    if bw2.count = 500 then
      match bw2.flushBatch s with
      | .error e => .error e
      | .ok (bw3, s3) =>
        match BW.delBlocks restRefs (blockIters restRefs.length) 0 bw3 s3 with
        | .error e => .error e
        | .ok (bw4, s4) =>
          if bw4.curCommitted then
            .ok ({bw4 with pend := [], count := 0, curCommitted := false}, s4)
          else .ok (bw4, s4)
    else .ok (bw2, s)

def BW.flush (bw : BW) (s : Store) : Except Err (BW × Store) := bw.flushBatch s

/-! ## Side-batch push: stage, integrate, rollback -/

/-- Result of staging rows of one list: the caller-visible rows after the
in-place `removeWatermelonInternals` mutations, the writer, the store and
the first error. -/
structure RowsOut where
  after : List Rec
  bw : BW
  store : Store
  err : Option Err
deriving Repr

/-- Stage one list of rows: each row is stripped in place (mutating the
caller's object) and then fed through the writer; on an error the
remaining rows are untouched. -/
def stageRows (t : String) : List Rec → BW → Store → RowsOut
  | [], bw, s => ⟨[], bw, s, none⟩
  | raw :: rest, bw, s =>
    let r := removeWatermelonInternals raw
    match bw.write s t r with
    | .error e => ⟨r :: rest, bw, s, some e⟩
    | .ok (bw2, s2) =>
      let out := stageRows t rest bw2 s2
      ⟨r :: out.after, out.bw, out.store, out.err⟩

structure StageOut where
  after : Changes
  bw : BW
  store : Store
  deletes : List (String × List String)
  err : Option Err
deriving Repr

/-- The serial staging loop of `pushBatchedChanges`: per table, created
rows, then updated rows, then the discovered delete refs (recording
`deletes[table]` before the writer call, as the source does). -/
def stageTables (delRefs : AllDeleteRefs) :
    Changes → BW → Store → List (String × List String) → StageOut
  | [], bw, s, ds => ⟨[], bw, s, ds, none⟩
  | (t, tc) :: rest, bw, s, ds =>
    let oc := stageRows t tc.created bw s
    match oc.err with
    | some e => ⟨(t, {tc with created := oc.after}) :: rest, oc.bw, oc.store, ds, some e⟩
    | none =>
      let ou := stageRows t tc.updated oc.bw oc.store
      match ou.err with
      | some e =>
        ⟨(t, {tc with created := oc.after, updated := ou.after}) :: rest,
          ou.bw, ou.store, ds, some e⟩
      | none =>
        let tc2 := {tc with created := oc.after, updated := ou.after}
        match alook delRefs t with
        | none =>
          let out := stageTables delRefs rest ou.bw ou.store ds
          ⟨(t, tc2) :: out.after, out.bw, out.store, out.deletes, out.err⟩
        | some refs =>
          let ds2 := ds ++ [(t, refs.map (·.id))]
          match BW.deleted ou.bw ou.store (refs.map (·.ref)) with
          | .error e => ⟨(t, tc2) :: rest, ou.bw, ou.store, ds2, some e⟩
          | .ok (bw3, s3) =>
            let out := stageTables delRefs rest bw3 s3 ds2
            ⟨(t, tc2) :: out.after, out.bw, out.store, out.deletes, out.err⟩

/-- A JavaScript value handed to `batch.delete` during rollback: thanks to
the missing spread in `rollbackRefs.push(writtenDocs.docs.map(...))`, each
element is an array of references rather than a reference. -/
inductive JVal where
  | jref (l : Loc)
  | jarr (ls : List Loc)
deriving DecidableEq, Repr

/-- `batch.delete(v)`: Firestore validates that the argument is a
`DocumentReference` and throws otherwise. -/
def jbatchDelete (acc : List Loc) : JVal → Except Err (List Loc)
  | .jref l => .ok (acc ++ [l])
  | .jarr _ => .error .invalidArgument

def jbatchDeletes : List Loc → List JVal → Except Err (List Loc)
  | acc, [] => .ok acc
  | acc, v :: rest =>
    match jbatchDelete acc v with
    | .error e => .error e
    | .ok acc2 => jbatchDeletes acc2 rest

/-- The rollback block loop.  An error thrown inside the `catch` block
propagates instead of the original integrate error. -/
def rollbackBlocks (refs : List JVal) : Nat → Nat → Store → Store × Option Err
  | 0, _, s => (s, none)
  | n + 1, i, s =>
    let block := sliceBlock refs i
    match jbatchDeletes [] block with
    | .error e => (s, some e)
    | .ok ls => rollbackBlocks refs n (i + 1) (ls.foldl Store.delDoc s)

/-- The rollback phase of `pushBatchedChanges`: collect the refs of every
document written under the side-batch — as one array per table, because
of the missing spread — and delete in blocks. -/
def rollback (s : Store) (token : String) (tables : List String) : Store × Option Err :=
  let rollbackRefs : List JVal :=
    tables.map (fun t =>
      .jarr ((s.colDocs (.batch token) t).map (fun p => ⟨.batch token, t, p.1⟩)))
  rollbackBlocks rollbackRefs (blockIters rollbackRefs.length) 0 s

/-- `pushBatchedChanges`.  `token` is the fresh auto-id Firestore hands
out for the side-batch document; `integrateFails` is an oracle for an
external failure of the integrate transaction (such as the store
rejecting it). -/
def pushBatchedChanges (token : String) (integrateFails : Bool)
    (s : Store) (params : PushParams) (delRefs : AllDeleteRefs) : PushResult :=
  let md := revisionFromBaseSnap s.rootDoc
  let revision := md.1
  if revision ≠ params.lastPulledAt then
    { store := s, changesAfter := params.changes, err := some .outOfSync }
  else
    let so := stageTables delRefs params.changes (BW.init token revision) s []
    match so.err with
    | some e => { store := so.store, changesAfter := so.after, err := some e }
    | none =>
      match so.bw.flush so.store with
      | .error e => { store := so.store, changesAfter := so.after, err := some e }
      | .ok (_, s2) =>
        if integrateFails then
          let rb := rollback s2 token (params.changes.map Prod.fst)
          match rb.2 with
          | some e => { store := rb.1, changesAfter := so.after, err := some e }
          | none => { store := rb.1, changesAfter := so.after, err := some .integrateFailed }
        else
          -- integrate transaction: re-check (same pre-read values), set the
          -- batch doc, merge-set the base doc
          if revision ≠ params.lastPulledAt then
            let rb := rollback s2 token (params.changes.map Prod.fst)
            match rb.2 with
            | some e => { store := rb.1, changesAfter := so.after, err := some e }
            | none => { store := rb.1, changesAfter := so.after, err := some .outOfSync }
          else
            let s3 := {s2 with
              batchDocs := aput s2.batchDocs token ⟨some revision, some nowDate, so.deletes⟩}
            let newRoot : RootDoc :=
              ⟨some revision, some nowDate, some (aput (md.2.getD []) revision token)⟩
            { store := {s3 with rootDoc := some newRoot}
              changesAfter := so.after
              err := none }

/-- `pushChanges`: the planner. -/
def pushChanges (token : String) (integrateFails : Bool)
    (s : Store) (params : PushParams) : PushResult :=
  let delRefs := findDeleteRefs s params.changes
  let delChanges := (delRefs.map (fun p => p.2.length)).foldl (· + ·) 0
  if countChanges params.changes delChanges < 500 then
    pushAllChanges s params delRefs
  else
    pushBatchedChanges token integrateFails s params delRefs

/-! ## Derived notions used by the specification claims -/

/-- Total number of discovered delete references. -/
def discoveredDeleteCount (delRefs : AllDeleteRefs) : Nat :=
  (delRefs.map (fun p => p.2.length)).foldl (· + ·) 0

/-- The planner count exactly as the specification phrases it:
`effective = C + (D > 0 ? D + 1 : 0)` with `C` the total number of created
plus updated rows. -/
def effectivePushSize (changes : Changes) (d : Nat) : Nat :=
  (changes.map (fun p => p.2.created.length + p.2.updated.length)).foldl (· + ·) 0 +
    (if 0 < d then d + 1 else 0)

/-- A row as it comes back from a pull: all four internal fields
stripped. -/
def stripRow (r : Rec) : Rec := removeMelonFields (removeWatermelonInternals r)

/-- The caller's changeset after the side-batch path has run: every
created and updated row stripped in place by `removeWatermelonInternals`. -/
def stripWmChanges (changes : Changes) : Changes :=
  changes.map (fun p => (p.1,
    { p.2 with
        created := p.2.created.map removeWatermelonInternals
        updated := p.2.updated.map removeWatermelonInternals }))

/-! ## Helper lemmas -/

instance {ε α : Type} [DecidableEq ε] [DecidableEq α] : DecidableEq (Except ε α) := fun x y =>
  match x, y with
  | .error a, .error b =>
    if h : a = b then isTrue (by rw [h]) else isFalse (by simp [h])
  | .error _, .ok _ => isFalse (by simp)
  | .ok _, .error _ => isFalse (by simp)
  | .ok a, .ok b =>
    if h : a = b then isTrue (by rw [h]) else isFalse (by simp [h])

theorem alook_aput_self {κ β : Type} [DecidableEq κ] (m : List (κ × β)) (k : κ) (v : β) :
    alook (aput m k v) k = some v := by
  induction m with
  | nil => simp [aput, alook]
  | cons p rest ih =>
    obtain ⟨pk, pv⟩ := p
    by_cases h : pk = k <;> simp [aput, alook, h, ih]

theorem alook_aput_other {κ β : Type} [DecidableEq κ] (m : List (κ × β)) (k k2 : κ) (v : β)
    (h : k2 ≠ k) : alook (aput m k v) k2 = alook m k2 := by
  have h2 : k ≠ k2 := Ne.symm h
  induction m with
  | nil => simp [aput, alook, h2]
  | cons p rest ih =>
    obtain ⟨pk, pv⟩ := p
    by_cases hp : pk = k
    · subst hp
      simp [aput, alook, h2]
    · simp [aput, alook, hp, ih]

theorem aput_of_alook_none {κ β : Type} [DecidableEq κ] (m : List (κ × β)) (k : κ) (v : β)
    (h : alook m k = none) : aput m k v = m ++ [(k, v)] := by
  induction m with
  | nil => simp [aput]
  | cons p rest ih =>
    obtain ⟨pk, pv⟩ := p
    by_cases hp : pk = k
    · simp [alook, hp] at h
    · simp only [alook, hp, if_false] at h
      simp [aput, hp, ih h]

theorem alook_append_left {κ β : Type} [DecidableEq κ] (m1 m2 : List (κ × β)) (k : κ) (v : β)
    (h : alook m1 k = some v) : alook (m1 ++ m2) k = some v := by
  induction m1 with
  | nil => simp [alook] at h
  | cons p rest ih =>
    obtain ⟨pk, pv⟩ := p
    by_cases hp : pk = k
    · simp [alook, hp] at h ⊢
      exact h
    · simp only [alook, hp, if_false] at h
      simpa [alook, hp] using ih h

theorem alook_append_right {κ β : Type} [DecidableEq κ] (m1 m2 : List (κ × β)) (k : κ)
    (h : alook m1 k = none) : alook (m1 ++ m2) k = alook m2 k := by
  induction m1 with
  | nil => simp
  | cons p rest ih =>
    obtain ⟨pk, pv⟩ := p
    by_cases hp : pk = k
    · simp [alook, hp] at h
    · simp only [alook, hp, if_false] at h
      simpa [alook, hp] using ih h

theorem pullLoop_not_lt (s : Store) (tables : List String)
    (bt : Option (List (Nat × String))) (stop fuel start : Nat) (cm : ChangeMap)
    (h : ¬ start < stop) : pullLoop s tables bt stop fuel start cm = .ok cm := by
  cases fuel <;> simp [pullLoop, h]

theorem alook_seedMap (tables : List String) (t : String) (ht : t ∈ tables) :
    alook (seedMap tables) t = some ⟨[], []⟩ := by
  induction tables with
  | nil => cases ht
  | cons a rest ih =>
    by_cases h : a = t
    · simp [seedMap, alook, h]
    · cases ht with
      | head => exact absurd rfl h
      | tail _ hmem => simpa [seedMap, alook, h] using ih hmem

/-! ## Claim C2 -/

/-- **C2.**  For every push, the planner computes
`effective = C + (D > 0 ? D + 1 : 0)` from the discovered delete-reference
count `D` and the total `C` of created plus updated rows, and takes the
single-transaction inline path exactly when `effective + 1 ≤ 500`,
otherwise the side-batch path. -/
theorem c2_planner_effective_threshold (token : String) (integrateFails : Bool)
    (s : Store) (params : PushParams) :
    pushChanges token integrateFails s params =
      if effectivePushSize params.changes
          (discoveredDeleteCount (findDeleteRefs s params.changes)) + 1 ≤ 500 then
        pushAllChanges s params (findDeleteRefs s params.changes)
      else
        pushBatchedChanges token integrateFails s params (findDeleteRefs s params.changes) := by
  have he : ∀ d, countChanges params.changes d = effectivePushSize params.changes d :=
    fun _ => rfl
  simp only [pushChanges, discoveredDeleteCount, he, Nat.lt_iff_add_one_le]

/-! ## Claim C3 -/

/-- **C3.**  On either path, a push whose next revision (computed from the
root snapshot) differs from the caller's `lastPulledAt` fails with the
out-of-sync error and leaves the store — in particular the root document
and the root table collections — completely unchanged. -/
theorem c3_stale_write_preserves_store (s : Store) (params : PushParams)
    (delRefs : AllDeleteRefs) (token : String) (integrateFails : Bool)
    (h : (revisionFromBaseSnap s.rootDoc).1 ≠ params.lastPulledAt) :
    ((pushAllChanges s params delRefs).err = some .outOfSync ∧
      (pushAllChanges s params delRefs).store = s) ∧
    ((pushBatchedChanges token integrateFails s params delRefs).err = some .outOfSync ∧
      (pushBatchedChanges token integrateFails s params delRefs).store = s) := by
  unfold pushAllChanges pushBatchedChanges
  simp [h]

/-- Concrete instance of C3: a push at `lastPulledAt = 5` against an empty
store (next revision 1). -/
theorem c3_stale_write_witness :
    ((pushAllChanges emptyStore ⟨5, []⟩ []).err = some .outOfSync ∧
      (pushAllChanges emptyStore ⟨5, []⟩ []).store = emptyStore) ∧
    ((pushBatchedChanges "tok" false emptyStore ⟨5, []⟩ []).err = some .outOfSync ∧
      (pushBatchedChanges "tok" false emptyStore ⟨5, []⟩ []).store = emptyStore) :=
  c3_stale_write_preserves_store emptyStore ⟨5, []⟩ [] "tok" false (by decide)

/-! ## Claim C8 -/

/-- **C8.**  Pulling with `lastPulledAt = L + 1` against a store whose
committed latest revision is `L` returns empty per-table lists and
`timestamp = L + 1`. -/
theorem c8_watermark_empty_pull (tables : List String) (s : Store) (rd : RootDoc) (L : Nat)
    (h1 : s.rootDoc = some rd) (h2 : rd.melonLatestRevision = some L) (h3 : 1 ≤ L) :
    pullChanges tables s (some (L + 1)) =
      .ok ⟨tables.map (fun t => (t, ⟨[], [], []⟩)), L + 1⟩ := by
  have hL : L ≠ 0 := by omega
  have hrev : revisionFromBaseSnap s.rootDoc = (L + 1, rd.melonBatchTokens) := by
    rw [h1]; simp [revisionFromBaseSnap, h2, hL]
  simp only [pullChanges, hrev]
  rw [pullLoop_not_lt _ _ _ _ _ _ _ (show ¬ L + 1 < L + 1 by omega)]
  simp only [Except.ok.injEq, PullResult.mk.injEq, and_true]
  exact List.map_congr_left fun t ht => by rw [alook_seedMap tables t ht]; rfl

/-- Concrete instance of C8: latest revision 2, pull at 3. -/
theorem c8_watermark_witness :
    pullChanges ["entries"] ⟨some ⟨some 2, some "d", none⟩, [], [], []⟩ (some 3) =
      .ok ⟨[("entries", ⟨[], [], []⟩)], 3⟩ :=
  c8_watermark_empty_pull ["entries"] ⟨some ⟨some 2, some "d", none⟩, [], [], []⟩
    ⟨some 2, some "d", none⟩ 2 rfl rfl (by decide)

/-! ## Claim C7 -/

/-- **C7.**  The changeset a pull returns is assembled with
`created = []`, `updated` equal to the updated map's values minus the rows
whose `id` is a deleted key, and `deleted` the deleted key set; hence an
id marked both updated and deleted appears only in `deleted`. -/
theorem c7_delete_occlusion (tables : List String) (s : Store) (lastPulledAt : Option Nat)
    (pr : PullResult) (hok : pullChanges tables s lastPulledAt = .ok pr) :
    ∀ t tc, (t, tc) ∈ pr.changes →
      tc.created = [] ∧ ∀ row ∈ tc.updated, ¬ tc.deleted.contains row.id := by
  have hshape : ∃ cm : ChangeMap,
      pr.changes = tables.map (fun t => (t, assembleTable ((alook cm t).getD ⟨[], []⟩))) := by
    cases lastPulledAt with
    | none =>
      simp only [pullChanges] at hok
      rcases hx : pullLoop s tables (revisionFromBaseSnap s.rootDoc).2
          (revisionFromBaseSnap s.rootDoc).1 ((revisionFromBaseSnap s.rootDoc).1 + 1)
          1 (seedMap tables) with e | cm
      · rw [hx] at hok; simp at hok
      · rw [hx] at hok
        injection hok with hok
        exact ⟨cm, by rw [← hok]⟩
    | some r =>
      simp only [pullChanges] at hok
      rcases hx : pullLoop s tables (revisionFromBaseSnap s.rootDoc).2
          (revisionFromBaseSnap s.rootDoc).1 ((revisionFromBaseSnap s.rootDoc).1 + 1)
          r (seedMap tables) with e | cm
      · rw [hx] at hok; simp at hok
      · rw [hx] at hok
        injection hok with hok
        exact ⟨cm, by rw [← hok]⟩
  obtain ⟨cm, hcm⟩ := hshape
  intro t tc hmem
  rw [hcm] at hmem
  simp only [List.mem_map] at hmem
  obtain ⟨t2, ht2, heq⟩ := hmem
  injection heq with h1 h2
  subst h1
  subst h2
  refine ⟨rfl, fun row hrow => ?_⟩
  have hf := (List.mem_filter.1 hrow).2
  simp only [Bool.not_eq_eq_eq_not, Bool.not_true] at hf
  simp at hf
  simpa [assembleTable] using hf

/-- Concrete instance of C7: `"aaa"` written at revision 1 and deleted at
revision 2 appears only in the `deleted` list of a full pull. -/
theorem c7_delete_occlusion_witness :
    pullChanges ["entries"]
        ⟨some ⟨some 2, some "d", none⟩,
          [(⟨.root, "entries", "aaa"⟩, ⟨"aaa", "x", none, none, none, some 1⟩)],
          [], [⟨2, [("entries", ["aaa"])]⟩]⟩ none =
      .ok ⟨[("entries", ⟨[], [], ["aaa"]⟩)], 3⟩ ∧
    ∀ row ∈ (⟨[], [], ["aaa"]⟩ : TableChanges).updated,
      ¬ (⟨[], [], ["aaa"]⟩ : TableChanges).deleted.contains row.id := by
  refine ⟨by decide, ?_⟩
  exact (c7_delete_occlusion ["entries"]
    ⟨some ⟨some 2, some "d", none⟩,
      [(⟨.root, "entries", "aaa"⟩, ⟨"aaa", "x", none, none, none, some 1⟩)],
      [], [⟨2, [("entries", ["aaa"])]⟩]⟩ none
    ⟨[("entries", ⟨[], [], ["aaa"]⟩)], 3⟩ (by decide) "entries"
    ⟨[], [], ["aaa"]⟩ (by decide)).2

/-! ## Claim C9 (code bug) -/

set_option maxRecDepth 100000

/-- **C9.**  Evaluation of the Batch Writer at the failing input: a
`deleted` call with 1001 refs on a fresh writer does not fill, flush and
carry a 1-ref remainder forward as the claim describes.  The un-awaited
`this.flushBatch()` commits the second full block synchronously without
resetting the writer, so the final ref is queued onto the
already-committed batch and the call throws. -/
theorem c9_adddeletes_overflow_fails :
    BW.deleted (BW.init "tok" 1) emptyStore
        ((List.range 1001).map (fun i => (⟨.root, "entries", toString i⟩ : Loc))) =
      .error .committedBatch := by
  decide

/-! ## Claim C1 (code bug) -/

/-- **C1.**  Evaluation of the side-batch push at the failing input: one
created row, integrate fails.  Because the rollback pushes one *array* of
refs per table into `rollbackRefs` (missing spread), `batch.delete`
receives an array and throws: the staged table document survives under the
side-batch and the propagated error is the argument error, not the
original integrate error. -/
theorem c1_rollback_leaves_staged_doc :
    (pushBatchedChanges "tok" true emptyStore
        ⟨1, [("entries", ⟨[⟨"aaa", "d", none, none, none, none⟩], [], []⟩)]⟩ []).err =
      some .invalidArgument ∧
    (pushBatchedChanges "tok" true emptyStore
        ⟨1, [("entries", ⟨[⟨"aaa", "d", none, none, none, none⟩], [], []⟩)]⟩ []).store.getDoc
        ⟨.batch "tok", "entries", "aaa"⟩ =
      some ⟨"aaa", "d", none, none, none, some 1⟩ := by
  decide

/-! ## Claim C5 (counterexample part) -/

/-- **C5, counterexample.**  The claim quantifies over every logical id.
For `s = "100%"` the push succeeds (document key `"100%25"`), but the pull
applies `decodeURIComponent` to the stored raw id `"100%"`, which throws a
`URIError`: no row with id `s` is ever returned. -/
theorem c5_id_counterexample :
    (pushChanges "tok" false emptyStore
        ⟨1, [("entries", ⟨[⟨"100%", "d", none, none, none, none⟩], [], []⟩)]⟩).err = none ∧
    pullChanges ["entries"]
        (pushChanges "tok" false emptyStore
          ⟨1, [("entries", ⟨[⟨"100%", "d", none, none, none, none⟩], [], []⟩)]⟩).store none =
      .error .uriError := by
  decide

/-! ## Claim C10 -/

theorem stageRows_after (t : String) (rows : List Rec) (bw : BW) (s : Store)
    (h : (stageRows t rows bw s).err = none) :
    (stageRows t rows bw s).after = rows.map removeWatermelonInternals := by
  induction rows generalizing bw s with
  | nil => rfl
  | cons raw rest ih =>
    simp only [stageRows] at h ⊢
    cases hw : bw.write s t (removeWatermelonInternals raw) with
    | error e => rw [hw] at h; simp at h
    | ok p =>
      obtain ⟨bw2, s2⟩ := p
      rw [hw] at h
      simp only [List.map_cons]
      simp at h ⊢
      exact ih bw2 s2 h

theorem stageTables_after (delRefs : AllDeleteRefs) (changes : Changes) (bw : BW) (s : Store)
    (ds : List (String × List String))
    (h : (stageTables delRefs changes bw s ds).err = none) :
    (stageTables delRefs changes bw s ds).after = stripWmChanges changes := by
  induction changes generalizing bw s ds with
  | nil => rfl
  | cons p rest ih =>
    obtain ⟨t, tc⟩ := p
    simp only [stageTables] at h ⊢
    cases hc : (stageRows t tc.created bw s).err with
    | some e => rw [hc] at h; simp at h
    | none =>
      rw [hc] at h
      simp only [] at h
      have hcafter := stageRows_after t tc.created bw s hc
      cases hu : (stageRows t tc.updated (stageRows t tc.created bw s).bw
          (stageRows t tc.created bw s).store).err with
      | some e => rw [hu] at h; simp at h
      | none =>
        rw [hu] at h
        simp only [] at h
        have huafter := stageRows_after t tc.updated (stageRows t tc.created bw s).bw
          (stageRows t tc.created bw s).store hu
        cases hd : alook delRefs t with
        | none =>
          rw [hd] at h
          simp only [] at h
          simp [hd, stripWmChanges, hcafter, huafter,
            ih _ _ _ (show (stageTables delRefs rest _ _ _).err = none by simpa using h)]
        | some refs =>
          rw [hd] at h
          simp only [] at h
          cases hbd : BW.deleted (stageRows t tc.updated (stageRows t tc.created bw s).bw
              (stageRows t tc.created bw s).store).bw
              (stageRows t tc.updated (stageRows t tc.created bw s).bw
                (stageRows t tc.created bw s).store).store (refs.map (·.ref)) with
          | error e => rw [hbd] at h; simp at h
          | ok q =>
            obtain ⟨bw3, s3⟩ := q
            rw [hbd] at h
            simp only [] at h
            simp [hd, hbd, stripWmChanges, hcafter, huafter,
              ih _ _ _ (show (stageTables delRefs rest _ _ _).err = none by simpa using h)]

/-- **C10.**  The inline path copies each row before stripping, so the
caller's `params.changes` is returned unchanged; the side-batch path
applies `removeWatermelonInternals` to the caller's row objects in place,
so after a staging pass every created and updated row of the caller's
changeset has `_status` and `_changed` deleted. -/
theorem c10_batched_mutates_inline_copies :
    (∀ (s : Store) (params : PushParams) (delRefs : AllDeleteRefs),
      (pushAllChanges s params delRefs).changesAfter = params.changes) ∧
    (∀ (token : String) (integrateFails : Bool) (s : Store) (params : PushParams)
        (delRefs : AllDeleteRefs),
      (revisionFromBaseSnap s.rootDoc).1 = params.lastPulledAt →
      (stageTables delRefs params.changes
        (BW.init token (revisionFromBaseSnap s.rootDoc).1) s []).err = none →
      (pushBatchedChanges token integrateFails s params delRefs).changesAfter =
        stripWmChanges params.changes) := by
  constructor
  · intro s params delRefs
    by_cases h : (revisionFromBaseSnap s.rootDoc).1 ≠ params.lastPulledAt <;>
      simp [pushAllChanges, h]
  · intro token integrateFails s params delRefs hrev hstage
    have hafter := stageTables_after delRefs params.changes
      (BW.init token (revisionFromBaseSnap s.rootDoc).1) s [] hstage
    simp only [pushBatchedChanges, hstage, hafter]
    rw [if_neg (by simp [hrev])]
    split <;> try rfl
    split <;> try rfl
    split <;> try rfl
    split <;> try rfl
    split <;> rfl

/-- Concrete instance of C10: a created row carrying `_status`/`_changed`
comes back untouched from the inline path and stripped from the
side-batch path. -/
theorem c10_mutation_witness :
    (pushAllChanges emptyStore
        ⟨1, [("entries", ⟨[⟨"aaa", "d", some "created", some "c", none, none⟩], [], []⟩)]⟩
        []).changesAfter =
      [("entries", ⟨[⟨"aaa", "d", some "created", some "c", none, none⟩], [], []⟩)] ∧
    (pushBatchedChanges "tok" false emptyStore
        ⟨1, [("entries", ⟨[⟨"aaa", "d", some "created", some "c", none, none⟩], [], []⟩)]⟩
        []).changesAfter =
      stripWmChanges
        [("entries", ⟨[⟨"aaa", "d", some "created", some "c", none, none⟩], [], []⟩)] :=
  ⟨c10_batched_mutates_inline_copies.1 emptyStore
      ⟨1, [("entries", ⟨[⟨"aaa", "d", some "created", some "c", none, none⟩], [], []⟩)]⟩ [],
   c10_batched_mutates_inline_copies.2 "tok" false emptyStore
      ⟨1, [("entries", ⟨[⟨"aaa", "d", some "created", some "c", none, none⟩], [], []⟩)]⟩ []
      (by decide) (by decide)⟩

/-! ## Claim C6 -/

theorem getLast?_none {α : Type} (l : List α) (h : l.getLast? = none) : l = [] := by
  cases l with
  | nil => rfl
  | cons a t =>
    rw [List.getLast?_eq_getLast _ (by simp)] at h
    cases h

theorem getLast?_mem {α : Type} : ∀ (l : List α) (a : α), l.getLast? = some a → a ∈ l := by
  intro l
  induction l with
  | nil => intro a h; simp at h
  | cons b t ih =>
    intro a h
    cases t with
    | nil =>
      rw [List.getLast?_singleton] at h
      injection h with h
      simp [h]
    | cons c t2 =>
      rw [List.getLast?_cons_cons] at h
      exact List.mem_cons_of_mem b (ih a h)

theorem getLast?_cons_some {α : Type} (a q : α) (l : List α) (h : l.getLast? = some q) :
    (a :: l).getLast? = some q := by
  cases l with
  | nil => simp at h
  | cons b t => rw [List.getLast?_cons_cons]; exact h

theorem pairwise_getLast?_max {α : Type} (R : α → α → Prop) :
    ∀ (l : List α) (a : α), l.Pairwise R → l.getLast? = some a → ∀ x ∈ l, x = a ∨ R x a := by
  intro l
  induction l with
  | nil => intro a _ hl; simp at hl
  | cons b t ih =>
    intro a hp hl x hx
    cases t with
    | nil =>
      rw [List.getLast?_singleton] at hl
      injection hl with hl
      have hxb := List.mem_singleton.1 hx
      exact Or.inl (hxb.trans hl)
    | cons c t2 =>
      rw [List.getLast?_cons_cons] at hl
      rcases List.mem_cons.1 hx with rfl | hx2
      · exact Or.inr ((List.pairwise_cons.1 hp).1 a (getLast?_mem _ a hl))
      · exact ih a (List.pairwise_cons.1 hp).2 hl x hx2

theorem docLe_rev {p q : String × Rec} (h : docLe p q) : revOf p ≤ revOf q := by
  rcases h with h | ⟨h, _⟩
  · exact Nat.le_of_lt h
  · exact Nat.le_of_eq h

theorem sortDocs_perm (l : List (String × Rec)) : List.Perm (sortDocs l) l :=
  List.perm_insertionSort docLe l

theorem sortDocs_pairwise (l : List (String × Rec)) :
    (sortDocs l).Pairwise (fun p q => revOf p ≤ revOf q) :=
  (List.sorted_insertionSort docLe l).imp docLe_rev

/-- The effect of the `mergeCreatesAndUpdates` fold on one key: the entry
at `s` is the stripped last-processed document whose id decodes to `s`,
or the previous entry when no processed document has that key. -/
theorem mergeDocs_lookup :
    ∀ (l : List (String × Rec)) (u u2 : List (String × Rec)) (s : String),
    mergeDocs u l = .ok u2 →
    alook u2 s =
      match (l.filter (fun p => decide (decodeURIComponent p.2.id = some s))).getLast? with
      | some p => some (removeMelonFields (removeWatermelonInternals p.2))
      | none => alook u s := by
  intro l
  induction l with
  | nil =>
    intro u u2 s hok
    injection hok with hok
    subst hok
    rfl
  | cons p rest ih =>
    intro u u2 s hok
    simp only [mergeDocs] at hok
    cases hd : decodeURIComponent (removeMelonFields (removeWatermelonInternals p.2)).id with
    | none => rw [hd] at hok; simp at hok
    | some k =>
      rw [hd] at hok
      have hid : decodeURIComponent p.2.id = some k := hd
      have hih := ih (aput u k (removeMelonFields (removeWatermelonInternals p.2))) u2 s hok
      by_cases hks : k = s
      · subst hks
        have hpred : decide (decodeURIComponent p.2.id = some k) = true := by
          simp [hid]
        rw [List.filter_cons, if_pos hpred]
        cases hfr : ((rest.filter
            (fun q => decide (decodeURIComponent q.2.id = some k))).getLast?) with
        | none =>
          rw [getLast?_none _ hfr]
          rw [hfr] at hih
          simpa [alook_aput_self] using hih
        | some q =>
          rw [getLast?_cons_some _ _ _ hfr]
          rw [hfr] at hih
          exact hih
      · have hpred : decide (decodeURIComponent p.2.id = some s) = false := by
          simp [hid, hks]
        rw [List.filter_cons, if_neg (by simp [hpred])]
        rw [alook_aput_other u k s _ (Ne.symm hks)] at hih
        exact hih

/-- **C6.**  `mergeCreatesAndUpdates` queries one table for documents with
`melonFireRevision` in `[start, stop)`, ascending, strips `_status`,
`_changed`, `melonFireChange` and `melonFireRevision` from each, and
overwrites the per-id map entry — so when the same logical id was written
at several revisions in the range, the entry ends up holding the stripped
row from the highest such revision. -/
theorem c6_merge_highest_revision_wins
    (docs : List (String × Rec)) (start stop : Nat) (u u2 : List (String × Rec))
    (s k2 : String) (rec2 : Rec) (r2 : Nat)
    (hok : mergeTable docs start stop u = .ok u2)
    (hmem : (k2, rec2) ∈ docs)
    (hdec : decodeURIComponent rec2.id = some s)
    (hrev : rec2.melonFireRevision = some r2)
    (hlo : start ≤ r2) (hhi : r2 < stop)
    (hmax : ∀ p ∈ docs, decodeURIComponent p.2.id = some s →
      p.2.melonFireRevision.isSome = true → start ≤ revOf p → revOf p < stop →
      revOf p < r2 ∨ p.2 = rec2) :
    alook u2 s = some (removeMelonFields (removeWatermelonInternals rec2)) ∧
    (removeMelonFields (removeWatermelonInternals rec2)).id = rec2.id ∧
    (removeMelonFields (removeWatermelonInternals rec2)).status = none ∧
    (removeMelonFields (removeWatermelonInternals rec2)).changed = none ∧
    (removeMelonFields (removeWatermelonInternals rec2)).melonFireChange = none ∧
    (removeMelonFields (removeWatermelonInternals rec2)).melonFireRevision = none := by
  refine ⟨?_, rfl, rfl, rfl, rfl, rfl⟩
  unfold mergeTable at hok
  have hlook := mergeDocs_lookup _ u u2 s hok
  set fl := docs.filter (inRevRange start stop) with hfl
  set sl := sortDocs fl with hsl
  set flS := sl.filter (fun p => decide (decodeURIComponent p.2.id = some s)) with hflS
  have hmem2 : (k2, rec2) ∈ flS := by
    rw [hflS]
    refine List.mem_filter.2 ⟨?_, by simp [hdec]⟩
    rw [hsl]
    refine (sortDocs_perm fl).mem_iff.2 ?_
    rw [hfl]
    refine List.mem_filter.2 ⟨hmem, ?_⟩
    simp [inRevRange, revOf, hrev, hlo, hhi]
  cases hgl : flS.getLast? with
  | none => exact absurd (getLast?_none _ hgl ▸ hmem2) (List.not_mem_nil _)
  | some pstar =>
    have hpmem : pstar ∈ flS := getLast?_mem _ _ hgl
    have hpdec : decodeURIComponent pstar.2.id = some s := by
      have := (List.mem_filter.1 (hflS ▸ hpmem)).2
      simpa using this
    have hpfl : pstar ∈ fl := (sortDocs_perm fl).mem_iff.1 (List.mem_filter.1 (hflS ▸ hpmem)).1
    have hpdocs : pstar ∈ docs := (List.mem_filter.1 (hfl ▸ hpfl)).1
    have hprange := (List.mem_filter.1 (hfl ▸ hpfl)).2
    have hprange2 : pstar.2.melonFireRevision.isSome = true ∧
        start ≤ revOf pstar ∧ revOf pstar < stop := by
      simpa [inRevRange, and_assoc] using hprange
    have hdisj := hmax pstar hpdocs hpdec hprange2.1 hprange2.2.1 hprange2.2.2
    have hpw : flS.Pairwise (fun p q => revOf p ≤ revOf q) := by
      rw [hflS]
      exact List.Pairwise.sublist (List.filter_sublist _) (sortDocs_pairwise fl)
    have hmax2 := pairwise_getLast?_max (fun p q => revOf p ≤ revOf q) flS
      pstar hpw hgl (k2, rec2) hmem2
    have hr2 : revOf (k2, rec2) = r2 := by simp [revOf, hrev]
    rw [hlook, hgl]
    simp only []
    rcases hmax2 with heq | hlev
    · rw [← heq]
    · rcases hdisj with hlt | heqrec
      · rw [hr2] at hlev
        exact absurd hlt (by omega)
      · rw [heqrec]

/-- Concrete instance of C6: the same logical id written at revisions 1
and 2; the merge map holds the revision-2 row, stripped. -/
theorem c6_merge_witness :
    mergeTable [("x", ⟨"x", "old", none, none, none, some 1⟩),
        ("x2", ⟨"x", "new", some "s", some "c", some "u", some 2⟩)] 1 3 [] =
      .ok [("x", ⟨"x", "new", none, none, none, none⟩)] ∧
    alook [("x", (⟨"x", "new", none, none, none, none⟩ : Rec))] "x" =
      some ⟨"x", "new", none, none, none, none⟩ := by
  refine ⟨by decide, ?_⟩
  exact (c6_merge_highest_revision_wins
    [("x", ⟨"x", "old", none, none, none, some 1⟩),
     ("x2", ⟨"x", "new", some "s", some "c", some "u", some 2⟩)] 1 3 []
    [("x", ⟨"x", "new", none, none, none, none⟩)] "x" "x2"
    ⟨"x", "new", some "s", some "c", some "u", some 2⟩ 2
    (by decide) (by decide) (by decide) rfl (by decide) (by decide) (by decide)).1

/-! ## Claim C5 (amended part) -/

/-- **C5, amended.**  For every logical row id `s` on which percent
decoding succeeds (in particular every id containing `/`, `:` or `#` but
no `%`), pushing a single row with id `s` stores the document under the
percent-encoded key with the raw `id` field equal to `s`, and a pull
returns the row with `id` exactly the string `s`.  (For ids on which
decoding fails, the pull throws — see the counterexample.) -/
theorem c5_id_fidelity (s d t : String) (hdec : decodeURIComponent s = some t) :
    (pushChanges "tok" false emptyStore
      ⟨1, [("entries", ⟨[⟨s, d, none, none, none, none⟩], [], []⟩)]⟩).err = none ∧
    (pushChanges "tok" false emptyStore
        ⟨1, [("entries", ⟨[⟨s, d, none, none, none, none⟩], [], []⟩)]⟩).store.getDoc
        ⟨.root, "entries", encodeURIComponent s⟩ =
      some ⟨s, d, none, none, none, some 1⟩ ∧
    pullChanges ["entries"]
        (pushChanges "tok" false emptyStore
          ⟨1, [("entries", ⟨[⟨s, d, none, none, none, none⟩], [], []⟩)]⟩).store none =
      .ok ⟨[("entries", ⟨[], [⟨s, d, none, none, none, none⟩], []⟩)], 2⟩ := by
  have hstore : (pushChanges "tok" false emptyStore
      ⟨1, [("entries", ⟨[⟨s, d, none, none, none, none⟩], [], []⟩)]⟩).store =
      ⟨some ⟨some 1, some nowDate, none⟩,
        [(⟨.root, "entries", encodeURIComponent s⟩, ⟨s, d, none, none, none, some 1⟩)],
        [], []⟩ := rfl
  refine ⟨rfl, ?_, ?_⟩
  · rw [hstore]
    simp [Store.getDoc, alook]
  · rw [hstore]
    simp only [pullChanges]
    have hcol : (Store.colDocs ⟨some ⟨some 1, some nowDate, none⟩,
        [(⟨.root, "entries", encodeURIComponent s⟩, ⟨s, d, none, none, none, some 1⟩)],
        [], []⟩ .root "entries") =
        [(encodeURIComponent s, ⟨s, d, none, none, none, some 1⟩)] := by
      simp [Store.colDocs]
    simp only [revisionFromBaseSnap]
    simp only [pullLoop, advanceEnd, hasToken]
    simp only [mergeAllTables, seedMap, List.map_cons, List.map_nil, alook, if_pos rfl]
    rw [hcol]
    simp only [mergeTable, inRevRange, revOf, sortDocs]
    simp [mergeDocs, removeMelonFields, removeWatermelonInternals, hdec, aput,
      applyDeleteRecs, assembleTable, alook, markDeleted,
      List.insertionSort, List.orderedInsert]

/-- The id of scenario S7, containing `/`, `:` and `#`-free url characters. -/
def artId : String := "https://rss.art19.com/smartless-gid://art19-episode-locator"

/-- Concrete instance of C5 at the id of scenario S7. -/
theorem c5_id_fidelity_witness :
    decodeURIComponent artId = some artId ∧
    ((pushChanges "tok" false emptyStore
        ⟨1, [("entries", ⟨[⟨artId, "hello", none, none, none, none⟩], [], []⟩)]⟩).err = none ∧
      (pushChanges "tok" false emptyStore
          ⟨1, [("entries", ⟨[⟨artId, "hello", none, none, none, none⟩], [], []⟩)]⟩).store.getDoc
          ⟨.root, "entries", encodeURIComponent artId⟩ =
        some ⟨artId, "hello", none, none, none, some 1⟩ ∧
      pullChanges ["entries"]
          (pushChanges "tok" false emptyStore
            ⟨1, [("entries", ⟨[⟨artId, "hello", none, none, none, none⟩], [], []⟩)]⟩).store none =
        .ok ⟨[("entries", ⟨[], [⟨artId, "hello", none, none, none, none⟩], []⟩)], 2⟩) :=
  ⟨by decide, c5_id_fidelity artId "hello" artId (by decide)⟩

/-! ## Claim C4: infrastructure -/

theorem foldl_fixed {α β : Type} (f : β → α → β) (h : ∀ b a, f b a = b) :
    ∀ (l : List α) (b : β), l.foldl f b = b := by
  intro l
  induction l with
  | nil => intro b; rfl
  | cons a rest ih =>
    intro b
    rw [List.foldl_cons, h]
    exact ih b

theorem findDeleteRefsTable_emptyStore (t : String) (ids : List String) :
    findDeleteRefsTable emptyStore t ids = [] := by
  unfold findDeleteRefsTable
  induction ids with
  | nil => rfl
  | cons i rest ih =>
    simp [List.filterMap_cons, baseDeleteRef, batchDeleteRefs, Store.getDoc,
      emptyStore, alook, ih]

theorem findDeleteRefs_emptyStore (changes : Changes) :
    findDeleteRefs emptyStore changes = [] := by
  unfold findDeleteRefs
  exact foldl_fixed _ (fun acc p => by simp [findDeleteRefsTable_emptyStore]) changes []

/-- Both push paths persist a row as its stamped form: internals stripped,
`melonFireRevision` set, `melonFireChange` carried through. -/
def stampRow (rev : Nat) (raw : Rec) : Rec :=
  ⟨raw.id, raw.data, none, none, raw.melonFireChange, some rev⟩

def rowDoc (a : Area) (t : String) (rev : Nat) (raw : Rec) : Loc × Rec :=
  (⟨a, t, encodeURIComponent raw.id⟩, stampRow rev raw)

def tableDocs (a : Area) (rev : Nat) (p : String × TableChanges) : List (Loc × Rec) :=
  (p.2.created ++ p.2.updated).map (rowDoc a p.1 rev)

/-- All table documents one push writes, in write order. -/
def pushDocs (a : Area) (rev : Nat) (changes : Changes) : List (Loc × Rec) :=
  changes.flatMap (tableDocs a rev)

def writeRows (a : Area) (t : String) (rev : Nat) (st : Store) (rows : List Rec) : Store :=
  rows.foldl (fun s2 raw => s2.setDoc ⟨a, t, encodeURIComponent raw.id⟩ (stampRow rev raw)) st

def writeFold (a : Area) (rev : Nat) (changes : Changes) (st : Store) : Store :=
  changes.foldl (fun s2 p => writeRows a p.1 rev s2 (p.2.created ++ p.2.updated)) st

theorem writeRows_fields (a : Area) (t : String) (rev : Nat) :
    ∀ (rows : List Rec) (st : Store),
      (writeRows a t rev st rows).rootDoc = st.rootDoc ∧
      (writeRows a t rev st rows).batchDocs = st.batchDocs ∧
      (writeRows a t rev st rows).deleteRecs = st.deleteRecs := by
  intro rows
  induction rows with
  | nil => intro st; exact ⟨rfl, rfl, rfl⟩
  | cons r rest ih =>
    intro st
    simpa [writeRows, List.foldl_cons, Store.setDoc] using ih (st.setDoc _ (stampRow rev r))

theorem writeFold_fields (a : Area) (rev : Nat) :
    ∀ (changes : Changes) (st : Store),
      (writeFold a rev changes st).rootDoc = st.rootDoc ∧
      (writeFold a rev changes st).batchDocs = st.batchDocs ∧
      (writeFold a rev changes st).deleteRecs = st.deleteRecs := by
  intro changes
  induction changes with
  | nil => intro st; exact ⟨rfl, rfl, rfl⟩
  | cons p rest ih =>
    intro st
    have h1 := writeRows_fields a p.1 rev (p.2.created ++ p.2.updated) st
    have h2 := ih (writeRows a p.1 rev st (p.2.created ++ p.2.updated))
    simp only [writeFold, List.foldl_cons] at h2 ⊢
    exact ⟨h2.1.trans h1.1, h2.2.1.trans h1.2.1, h2.2.2.trans h1.2.2⟩

theorem writeRows_append_docs (a : Area) (t : String) (rev : Nat) :
    ∀ (rows : List Rec) (st : Store),
    (∀ r ∈ rows, alook st.docs ⟨a, t, encodeURIComponent r.id⟩ = none) →
    ((rows.map (fun r => encodeURIComponent r.id)).Nodup) →
    writeRows a t rev st rows = {st with docs := st.docs ++ rows.map (rowDoc a t rev)} := by
  intro rows
  induction rows with
  | nil => intro st _ _; simp [writeRows]
  | cons r rest ih =>
    intro st hfresh hnd
    have hput : aput st.docs ⟨a, t, encodeURIComponent r.id⟩ (stampRow rev r) =
        st.docs ++ [rowDoc a t rev r] :=
      aput_of_alook_none _ _ _ (hfresh r (List.mem_cons_self r rest))
    have hstep : writeRows a t rev st (r :: rest) =
        writeRows a t rev {st with docs := st.docs ++ [rowDoc a t rev r]} rest := by
      simp only [writeRows, List.foldl_cons, Store.setDoc]
      rw [hput]
    rw [hstep, ih _ ?_ (List.nodup_cons.1 hnd).2]
    · simp [List.append_assoc, rowDoc]
    · intro r2 hr2
      have h1 : alook st.docs ⟨a, t, encodeURIComponent r2.id⟩ = none :=
        hfresh r2 (List.mem_cons_of_mem r hr2)
      have hne : encodeURIComponent r.id ≠ encodeURIComponent r2.id := by
        intro he
        apply (List.nodup_cons.1 hnd).1
        show encodeURIComponent r.id ∈ List.map (fun r => encodeURIComponent r.id) rest
        rw [he]
        exact List.mem_map_of_mem _ hr2
      rw [alook_append_right _ _ _ h1]
      simp [rowDoc, alook, Loc.mk.injEq, hne]

theorem alook_rowDocs_ne_table (a a2 : Area) (t t2 : String) (rev : Nat) (k : String)
    (h : t2 ≠ t) :
    ∀ (rows : List Rec), alook (rows.map (rowDoc a t rev)) ⟨a2, t2, k⟩ = none := by
  intro rows
  induction rows with
  | nil => rfl
  | cons r rest ih =>
    have h2 : t ≠ t2 := Ne.symm h
    simpa [rowDoc, alook, Loc.mk.injEq, h2] using ih

theorem writeFold_append_docs (a : Area) (rev : Nat) :
    ∀ (changes : Changes) (st : Store),
    (changes.map Prod.fst).Nodup →
    (∀ p ∈ changes, (((p.2.created ++ p.2.updated).map
       (fun r => encodeURIComponent r.id)).Nodup)) →
    (∀ p ∈ changes, ∀ r ∈ p.2.created ++ p.2.updated,
      alook st.docs ⟨a, p.1, encodeURIComponent r.id⟩ = none) →
    writeFold a rev changes st = {st with docs := st.docs ++ pushDocs a rev changes} := by
  intro changes
  induction changes with
  | nil => intro st _ _ _; simp [writeFold, pushDocs]
  | cons p rest ih =>
    intro st htab hkeys hfresh
    have hstep : writeFold a rev (p :: rest) st =
        writeFold a rev rest (writeRows a p.1 rev st (p.2.created ++ p.2.updated)) := rfl
    rw [hstep, writeRows_append_docs a p.1 rev _ st
      (hfresh p (List.mem_cons_self p rest)) (hkeys p (List.mem_cons_self p rest))]
    rw [ih _ (List.nodup_cons.1 htab).2 (fun q hq => hkeys q (List.mem_cons_of_mem p hq)) ?_]
    · simp [pushDocs, List.flatMap_cons, tableDocs, List.append_assoc]
    · intro q hq r2 hr2
      have h1 : alook st.docs ⟨a, q.1, encodeURIComponent r2.id⟩ = none :=
        hfresh q (List.mem_cons_of_mem p hq) r2 hr2
      have hqt : q.1 ≠ p.1 := by
        intro he
        exact (List.nodup_cons.1 htab).1 (he ▸ List.mem_map_of_mem Prod.fst hq)
      rw [alook_append_right _ _ _ h1]
      exact alook_rowDocs_ne_table a a p.1 q.1 rev _ hqt _

theorem applyOps_append (s : Store) (l1 l2 : List WOp) :
    applyOps s (l1 ++ l2) = applyOps (applyOps s l1) l2 := by
  simp [applyOps, List.foldl_append]

theorem writeRows_append (a : Area) (t : String) (rev : Nat) (st : Store)
    (l1 l2 : List Rec) :
    writeRows a t rev st (l1 ++ l2) = writeRows a t rev (writeRows a t rev st l1) l2 := by
  simp [writeRows, List.foldl_append]

theorem inlineFold_eq (rev : Nat) :
    ∀ (changes : Changes) (st : Store),
    changes.foldl (fun acc p => pushTableInline acc.1 rev [] acc.2 p) (st, []) =
      (writeFold .root rev changes st, []) := by
  intro changes
  induction changes with
  | nil => intro st; rfl
  | cons p rest ih =>
    intro st
    have hstep : pushTableInline st rev [] [] p =
        (writeRows .root p.1 rev st (p.2.created ++ p.2.updated), []) := rfl
    simp only [List.foldl_cons, hstep]
    exact ih _

/-- The inline push of any changeset into an empty store at
`lastPulledAt = 1`. -/
theorem pushAll_emptyStore (changes : Changes) :
    pushAllChanges emptyStore ⟨1, changes⟩ [] =
      { store := {writeFold .root 1 changes emptyStore with
          rootDoc := some ⟨some 1, some nowDate, none⟩},
        changesAfter := changes, err := none } := by
  unfold pushAllChanges
  rw [if_neg (by simp [revisionFromBaseSnap, emptyStore])]
  simp only [inlineFold_eq]
  have hroot : (writeFold Area.root 1 changes ⟨none, [], [], []⟩).rootDoc = none :=
    (writeFold_fields Area.root 1 changes ⟨none, [], [], []⟩).1
  simp [revisionFromBaseSnap, emptyStore, hroot]

theorem bw_write_ok (bw : BW) (st : Store) (t : String) (r : Rec)
    (hc : bw.curCommitted = false) :
    ∃ q : BW × Store, bw.write st t r = .ok q ∧ q.1.curCommitted = false ∧
      q.1.doc = bw.doc ∧ q.1.revision = bw.revision ∧
      applyOps q.2 q.1.pend =
        (applyOps st bw.pend).setDoc ⟨.batch bw.doc, t, encodeURIComponent r.id⟩
          {r with melonFireRevision := some bw.revision} := by
  have hq : bw.queue (.set ⟨.batch bw.doc, t, encodeURIComponent r.id⟩
      {r with melonFireRevision := some bw.revision}) =
      .ok {bw with pend := bw.pend ++ [.set ⟨.batch bw.doc, t, encodeURIComponent r.id⟩
        {r with melonFireRevision := some bw.revision}]} := by
    unfold BW.queue
    rw [if_neg (by simp [hc])]
  simp only [BW.write]
  rw [hq]
  simp only []
  simp only [BW.bumpCount]
  by_cases h5 : bw.count + 1 = 500
  · simp only [BW.flushBatch]
    rw [if_pos (by simpa using h5), if_neg (by simp [hc])]
    refine ⟨_, rfl, by simp, by simp, by simp, ?_⟩
    simp [applyOps_append, applyOps, applyOp]
  · rw [if_neg (by simpa using h5)]
    refine ⟨_, rfl, by simpa using hc, by simp, by simp, ?_⟩
    simp [applyOps_append, applyOps, applyOp]

theorem stageRows_ok (t : String) :
    ∀ (rows : List Rec) (bw : BW) (st : Store), bw.curCommitted = false →
    (stageRows t rows bw st).err = none ∧
    (stageRows t rows bw st).bw.curCommitted = false ∧
    (stageRows t rows bw st).bw.doc = bw.doc ∧
    (stageRows t rows bw st).bw.revision = bw.revision ∧
    applyOps (stageRows t rows bw st).store (stageRows t rows bw st).bw.pend =
      writeRows (.batch bw.doc) t bw.revision (applyOps st bw.pend) rows := by
  intro rows
  induction rows with
  | nil =>
    intro bw st hc
    exact ⟨rfl, hc, rfl, rfl, by simp [writeRows, stageRows]⟩
  | cons raw rest ih =>
    intro bw st hc
    obtain ⟨q, hw, hq1, hq2, hq3, hq4⟩ := bw_write_ok bw st t (removeWatermelonInternals raw) hc
    simp only [stageRows]
    rw [hw]
    simp only []
    obtain ⟨ih1, ih2, ih3, ih4, ih5⟩ := ih q.1 q.2 hq1
    refine ⟨ih1, ih2, ih3.trans hq2, ih4.trans hq3, ?_⟩
    rw [ih5, hq4, hq2, hq3]
    rfl

theorem stageTables_ok :
    ∀ (changes : Changes) (bw : BW) (st : Store) (ds : List (String × List String)),
    bw.curCommitted = false →
    (stageTables [] changes bw st ds).err = none ∧
    (stageTables [] changes bw st ds).bw.curCommitted = false ∧
    (stageTables [] changes bw st ds).bw.doc = bw.doc ∧
    (stageTables [] changes bw st ds).bw.revision = bw.revision ∧
    (stageTables [] changes bw st ds).deletes = ds ∧
    applyOps (stageTables [] changes bw st ds).store (stageTables [] changes bw st ds).bw.pend =
      writeFold (.batch bw.doc) bw.revision changes (applyOps st bw.pend) := by
  intro changes
  induction changes with
  | nil =>
    intro bw st ds hc
    exact ⟨rfl, hc, rfl, rfl, rfl, by simp [writeFold, stageTables]⟩
  | cons p rest ih =>
    intro bw st ds hc
    obtain ⟨t, tc⟩ := p
    obtain ⟨hc1, hc2, hc3, hc4, hc5⟩ := stageRows_ok t tc.created bw st hc
    obtain ⟨hu1, hu2, hu3, hu4, hu5⟩ := stageRows_ok t tc.updated
      (stageRows t tc.created bw st).bw (stageRows t tc.created bw st).store hc2
    simp only [stageTables]
    rw [hc1]
    simp only []
    rw [hu1]
    simp only []
    rw [show alook ([] : AllDeleteRefs) t = none from rfl]
    simp only []
    obtain ⟨ih1, ih2, ih3, ih4, ih5, ih6⟩ := ih
      (stageRows t tc.updated (stageRows t tc.created bw st).bw
        (stageRows t tc.created bw st).store).bw
      (stageRows t tc.updated (stageRows t tc.created bw st).bw
        (stageRows t tc.created bw st).store).store ds hu2
    refine ⟨ih1, ih2, ih3.trans (hu3.trans hc3), ih4.trans (hu4.trans hc4), ih5, ?_⟩
    rw [hc3, hc4] at hu5
    rw [ih6, hu3, hu4, hc3, hc4]
    have hfold : writeFold (.batch bw.doc) bw.revision ((t, tc) :: rest)
        (applyOps st bw.pend) =
        writeFold (.batch bw.doc) bw.revision rest
          (writeRows (.batch bw.doc) t bw.revision (applyOps st bw.pend)
            (tc.created ++ tc.updated)) := rfl
    rw [hfold, writeRows_append, ← hc5, ← hu5]

/-- The side-batch push of any changeset into an empty store at
`lastPulledAt = 1` (integrate transaction succeeding). -/
theorem pushBatched_emptyStore (token : String) (changes : Changes) :
    pushBatchedChanges token false emptyStore ⟨1, changes⟩ [] =
      { store := {writeFold (.batch token) 1 changes emptyStore with
          rootDoc := some ⟨some 1, some nowDate, some [(1, token)]⟩,
          batchDocs := [(token, ⟨some 1, some nowDate, []⟩)]},
        changesAfter := stripWmChanges changes, err := none } := by
  obtain ⟨h1, h2, h3, h4, h5, h6⟩ := stageTables_ok changes (BW.init token 1) emptyStore [] rfl
  have hafter := stageTables_after [] changes (BW.init token 1) emptyStore [] h1
  have h6b : applyOps (stageTables [] changes (BW.init token 1) emptyStore []).store
      (stageTables [] changes (BW.init token 1) emptyStore []).bw.pend =
      writeFold (.batch token) 1 changes emptyStore := h6
  have hrv : revisionFromBaseSnap emptyStore.rootDoc = (1, none) := rfl
  simp only [pushBatchedChanges, hrv]
  rw [if_neg (by simp)]
  rw [h1]
  simp only []
  simp only [BW.flush, BW.flushBatch]
  rw [if_neg (by simp [h2])]
  simp only [Bool.false_eq_true, if_false]
  rw [if_neg (by simp)]
  rw [h6b, h5, hafter]
  have hb : (writeFold (Area.batch token) 1 changes ⟨none, [], [], []⟩).batchDocs = [] :=
    (writeFold_fields (Area.batch token) 1 changes ⟨none, [], [], []⟩).2.1
  simp [hb, aput, emptyStore]

theorem mergeDocs_nodup :
    ∀ (l : List (String × Rec)) (u : List (String × Rec)),
    (∀ p ∈ l, decodeURIComponent p.2.id = some p.2.id) →
    ((l.map (fun p => p.2.id)).Nodup) →
    (∀ p ∈ l, alook u p.2.id = none) →
    mergeDocs u l = .ok (u ++ l.map (fun p =>
      (p.2.id, removeMelonFields (removeWatermelonInternals p.2)))) := by
  intro l
  induction l with
  | nil => intro u _ _ _; simp [mergeDocs]
  | cons p rest ih =>
    intro u hdec hnd hfresh
    simp only [mergeDocs]
    have hd : decodeURIComponent (removeMelonFields (removeWatermelonInternals p.2)).id =
        some p.2.id := hdec p (List.mem_cons_self p rest)
    rw [hd]
    simp only []
    rw [aput_of_alook_none u p.2.id _ (hfresh p (List.mem_cons_self p rest))]
    rw [ih _ (fun q hq => hdec q (List.mem_cons_of_mem p hq)) (List.nodup_cons.1 hnd).2 ?_]
    · simp [List.append_assoc]
    · intro q hq
      have h1 : alook u q.2.id = none := hfresh q (List.mem_cons_of_mem p hq)
      have hne : p.2.id ≠ q.2.id := by
        intro he
        apply (List.nodup_cons.1 hnd).1
        show p.2.id ∈ List.map (fun p => p.2.id) rest
        rw [he]
        exact List.mem_map_of_mem _ hq
      rw [alook_append_right _ _ _ h1]
      simp [alook, hne]

/-- The per-table query result after a revision-1 push: every stored
document survives the `[1, 2)` range filter, and the merge map holds the
stripped rows keyed by their raw ids, in query order. -/
theorem mergeTable_rows (rows : List Rec)
    (hdec : ∀ r ∈ rows, decodeURIComponent r.id = some r.id)
    (hids : (rows.map Rec.id).Nodup) :
    ∃ M, mergeTable (rows.map (fun r => (encodeURIComponent r.id, stampRow 1 r))) 1 2 [] =
        .ok M ∧ List.Perm (M.map Prod.snd) (rows.map stripRow) := by
  have hfilter : (rows.map (fun r => (encodeURIComponent r.id, stampRow 1 r))).filter
      (inRevRange 1 2) = rows.map (fun r => (encodeURIComponent r.id, stampRow 1 r)) := by
    refine List.filter_eq_self.2 fun p hp => ?_
    obtain ⟨r, _, rfl⟩ := List.mem_map.1 hp
    rfl
  have hperm : List.Perm (sortDocs (rows.map (fun r => (encodeURIComponent r.id, stampRow 1 r))))
      (rows.map (fun r => (encodeURIComponent r.id, stampRow 1 r))) :=
    sortDocs_perm _
  have hdec2 : ∀ p ∈ sortDocs (rows.map (fun r => (encodeURIComponent r.id, stampRow 1 r))),
      decodeURIComponent p.2.id = some p.2.id := by
    intro p hp
    obtain ⟨r, hr, rfl⟩ := List.mem_map.1 (hperm.mem_iff.1 hp)
    exact hdec r hr
  have hnd2 : ((sortDocs (rows.map (fun r => (encodeURIComponent r.id, stampRow 1 r)))).map
      (fun p => p.2.id)).Nodup := by
    refine (hperm.map (fun p => p.2.id)).nodup_iff.2 ?_
    have : (rows.map (fun r => (encodeURIComponent r.id, stampRow 1 r))).map
        (fun p => p.2.id) = rows.map Rec.id := by
      rw [List.map_map]
      exact List.map_congr_left fun r _ => rfl
    rw [this]
    exact hids
  have hok := mergeDocs_nodup
    (sortDocs (rows.map (fun r => (encodeURIComponent r.id, stampRow 1 r)))) []
    hdec2 hnd2 (fun p _ => rfl)
  refine ⟨_, by rw [mergeTable, hfilter]; exact hok, ?_⟩
  simp only [List.nil_append, List.map_map]
  have h1 : List.Perm ((sortDocs (rows.map (fun r => (encodeURIComponent r.id, stampRow 1 r)))).map
      ((fun p : String × Rec => p.2) ∘ (fun p : String × Rec =>
        (p.2.id, removeMelonFields (removeWatermelonInternals p.2)))))
      ((rows.map (fun r => (encodeURIComponent r.id, stampRow 1 r))).map
      ((fun p : String × Rec => p.2) ∘ (fun p : String × Rec =>
        (p.2.id, removeMelonFields (removeWatermelonInternals p.2))))) :=
    hperm.map _
  refine h1.trans ?_
  rw [List.map_map]
  exact List.Perm.of_eq (List.map_congr_left fun r _ => rfl)

theorem filterMap_tableDocs_eq (a : Area) (rev : Nat) (t : String) :
    ∀ (rows : List Rec),
    (rows.map (rowDoc a t rev)).filterMap (fun p =>
      if p.1.area = a ∧ p.1.table = t then some (p.1.key, p.2) else none) =
      rows.map (fun r => (encodeURIComponent r.id, stampRow rev r)) := by
  intro rows
  induction rows with
  | nil => rfl
  | cons r rest ih => simp [rowDoc, List.filterMap_cons, ih]

theorem filterMap_tableDocs_ne (a : Area) (rev : Nat) (t t2 : String) (h : t2 ≠ t) :
    ∀ (rows : List Rec),
    (rows.map (rowDoc a t2 rev)).filterMap (fun p =>
      if p.1.area = a ∧ p.1.table = t then some (p.1.key, p.2) else none) = [] := by
  intro rows
  induction rows with
  | nil => rfl
  | cons r rest ih =>
    simp only [List.map_cons, List.filterMap_cons, rowDoc]
    rw [if_neg (by simp [h])]
    exact ih

theorem filterMap_pushDocs_ne (a : Area) (rev : Nat) (t : String) :
    ∀ (changes : Changes), (∀ q ∈ changes, q.1 ≠ t) →
    (pushDocs a rev changes).filterMap (fun p =>
      if p.1.area = a ∧ p.1.table = t then some (p.1.key, p.2) else none) = [] := by
  intro changes
  induction changes with
  | nil => intro _; rfl
  | cons q rest ih =>
    intro hne
    simp only [pushDocs, List.flatMap_cons, List.filterMap_append]
    rw [show tableDocs a rev q = (q.2.created ++ q.2.updated).map (rowDoc a q.1 rev) from rfl]
    rw [filterMap_tableDocs_ne a rev t q.1 (hne q (List.mem_cons_self q rest))]
    rw [show rest.flatMap (tableDocs a rev) = pushDocs a rev rest from rfl]
    simpa using ih (fun q2 hq2 => hne q2 (List.mem_cons_of_mem q hq2))

theorem filterMap_pushDocs (a : Area) (rev : Nat) :
    ∀ (changes : Changes), (changes.map Prod.fst).Nodup →
    ∀ t tc, (t, tc) ∈ changes →
    (pushDocs a rev changes).filterMap (fun p =>
        if p.1.area = a ∧ p.1.table = t then some (p.1.key, p.2) else none) =
      (tc.created ++ tc.updated).map (fun r => (encodeURIComponent r.id, stampRow rev r)) := by
  intro changes
  induction changes with
  | nil => intro _ t tc h; cases h
  | cons q rest ih =>
    intro hnd t tc hmem
    simp only [pushDocs, List.flatMap_cons, List.filterMap_append]
    rcases List.mem_cons.1 hmem with heq | hmem2
    · subst heq
      rw [show tableDocs a rev (t, tc) = (tc.created ++ tc.updated).map (rowDoc a t rev)
        from rfl]
      rw [filterMap_tableDocs_eq]
      rw [show rest.flatMap (tableDocs a rev) = pushDocs a rev rest from rfl]
      rw [filterMap_pushDocs_ne a rev t rest ?_]
      · simp
      · intro q2 hq2 he
        apply (List.nodup_cons.1 hnd).1
        rw [show (t, tc).1 = t from rfl, ← he]
        exact List.mem_map_of_mem Prod.fst hq2
    · have hqt : q.1 ≠ t := by
        intro he
        apply (List.nodup_cons.1 hnd).1
        rw [he]
        exact List.mem_map_of_mem Prod.fst hmem2
      have htd : tableDocs a rev q = (q.2.created ++ q.2.updated).map (rowDoc a q.1 rev) := rfl
      rw [htd, filterMap_tableDocs_ne a rev t q.1 hqt]
      simpa [pushDocs] using ih (List.nodup_cons.1 hnd).2 t tc hmem2

theorem mergeAllTables_seed (s : Store) (a : Area) (start stop : Nat) :
    ∀ (tables : List String) (cm : ChangeMap),
    tables.Nodup →
    (∀ t ∈ tables, alook cm t = some ⟨[], []⟩) →
    (∀ t ∈ tables, ∃ M, mergeTable (s.colDocs a t) start stop [] = .ok M) →
    ∃ cm2, mergeAllTables s a start stop tables cm = .ok cm2 ∧
      (∀ t ∈ tables, ∀ M, mergeTable (s.colDocs a t) start stop [] = .ok M →
        alook cm2 t = some ⟨M, []⟩) ∧
      (∀ t, t ∉ tables → alook cm2 t = alook cm t) := by
  intro tables
  induction tables with
  | nil =>
    intro cm _ _ _
    exact ⟨cm, rfl, fun t ht => absurd ht (List.not_mem_nil t), fun t _ => rfl⟩
  | cons t rest ih =>
    intro cm hnd hseed hM
    obtain ⟨M, hMt⟩ := hM t (List.mem_cons_self t rest)
    obtain ⟨cm2, hok, hgot, hpres⟩ := ih (aput cm t ⟨M, []⟩) (List.nodup_cons.1 hnd).2
      (fun t2 ht2 => by
        rw [alook_aput_other cm t t2 _ (fun he => (List.nodup_cons.1 hnd).1 (he ▸ ht2))]
        exact hseed t2 (List.mem_cons_of_mem t ht2))
      (fun t2 ht2 => hM t2 (List.mem_cons_of_mem t ht2))
    refine ⟨cm2, ?_, ?_, ?_⟩
    · simp only [mergeAllTables]
      rw [hseed t (List.mem_cons_self t rest)]
      simp only []
      rw [hMt]
      simp only []
      exact hok
    · intro t2 ht2 M2 hM2
      rcases List.mem_cons.1 ht2 with rfl | ht3
      · rw [hMt] at hM2
        injection hM2 with hM2
        rw [hpres t2 (List.nodup_cons.1 hnd).1, alook_aput_self, ← hM2]
      · exact hgot t2 ht3 M2 hM2
    · intro t2 ht2
      rw [hpres t2 (fun h => ht2 (List.mem_cons_of_mem t h)),
        alook_aput_other cm t t2 _ (fun he => ht2 (he ▸ List.mem_cons_self t rest))]

theorem alook_map_self {β : Type} (f : String → β) :
    ∀ (l : List String) (t : String), t ∈ l →
    alook (l.map (fun t2 => (t2, f t2))) t = some (f t) := by
  intro l
  induction l with
  | nil => intro t ht; cases ht
  | cons a rest ih =>
    intro t ht
    by_cases h : a = t
    · simp [alook, h]
    · rcases List.mem_cons.1 ht with rfl | ht2
      · exact absurd rfl h
      · simpa [alook, h] using ih t ht2

/-- The `mergeCreatesAndUpdates` pass over every pushed table, run against
a store whose documents are exactly one revision-1 push: each requested
table's merged map holds the stripped pushed rows. -/
theorem mergeAll_push_store (a : Area) (s : Store) (changes : Changes)
    (hdocs : s.docs = pushDocs a 1 changes)
    (htab : (changes.map Prod.fst).Nodup)
    (hdec : ∀ p ∈ changes, ∀ r ∈ p.2.created ++ p.2.updated,
      decodeURIComponent r.id = some r.id)
    (hkeys : ∀ p ∈ changes,
      ((p.2.created ++ p.2.updated).map (fun r => encodeURIComponent r.id)).Nodup) :
    ∃ cm2, mergeAllTables s a 1 2 (changes.map Prod.fst)
        (seedMap (changes.map Prod.fst)) = .ok cm2 ∧
      ∀ p ∈ changes, ∃ M, alook cm2 p.1 = some ⟨M, []⟩ ∧
        List.Perm (M.map Prod.snd) ((p.2.created ++ p.2.updated).map stripRow) := by
  have hcol : ∀ p ∈ changes, s.colDocs a p.1 =
      (p.2.created ++ p.2.updated).map (fun r => (encodeURIComponent r.id, stampRow 1 r)) := by
    intro p hp
    simp only [Store.colDocs]
    rw [hdocs]
    exact filterMap_pushDocs a 1 changes htab p.1 p.2 hp
  have hmt : ∀ p ∈ changes, ∃ M, mergeTable (s.colDocs a p.1) 1 2 [] = .ok M ∧
      List.Perm (M.map Prod.snd) ((p.2.created ++ p.2.updated).map stripRow) := by
    intro p hp
    have hids : ((p.2.created ++ p.2.updated).map Rec.id).Nodup := by
      have hk := hkeys p hp
      rw [show (fun r => encodeURIComponent r.id) = encodeURIComponent ∘ Rec.id from rfl,
        ← List.map_map] at hk
      exact hk.of_map
    obtain ⟨M, hok, hperm⟩ := mergeTable_rows (p.2.created ++ p.2.updated) (hdec p hp) hids
    exact ⟨M, by rw [hcol p hp]; exact hok, hperm⟩
  have hMtab : ∀ t ∈ changes.map Prod.fst, ∃ M,
      mergeTable (s.colDocs a t) 1 2 [] = .ok M := by
    intro t ht
    obtain ⟨p, hp, rfl⟩ := List.mem_map.1 ht
    obtain ⟨M, hok, _⟩ := hmt p hp
    exact ⟨M, hok⟩
  obtain ⟨cm2, hok, hgot, _⟩ := mergeAllTables_seed s a 1 2 (changes.map Prod.fst)
    (seedMap (changes.map Prod.fst)) htab (fun t ht => alook_seedMap _ t ht) hMtab
  refine ⟨cm2, hok, ?_⟩
  intro p hp
  obtain ⟨M, hokM, hperm⟩ := hmt p hp
  exact ⟨M, hgot p.1 (List.mem_map_of_mem Prod.fst hp) M hokM, hperm⟩

theorem assembleTable_no_deletes (M : List (String × Rec)) :
    assembleTable ⟨M, []⟩ = ⟨[], M.map Prod.snd, []⟩ := by
  have h : (List.map Prod.snd M).filter (fun row => !(([] : List String).contains row.id)) =
      List.map Prod.snd M := List.filter_eq_self.2 (fun a _ => rfl)
  simp only [assembleTable, h]

/-- A pull at `lastPulledAt = null` against the store left by an inline
(root-path) revision-1 push on the empty store. -/
theorem pull_after_root_push (changes : Changes)
    (htab : (changes.map Prod.fst).Nodup)
    (hdec : ∀ p ∈ changes, ∀ r ∈ p.2.created ++ p.2.updated,
      decodeURIComponent r.id = some r.id)
    (hkeys : ∀ p ∈ changes,
      ((p.2.created ++ p.2.updated).map (fun r => encodeURIComponent r.id)).Nodup) :
    ∃ pr, pullChanges (changes.map Prod.fst)
        ⟨some ⟨some 1, some nowDate, none⟩, pushDocs .root 1 changes, [], []⟩ none = .ok pr ∧
      pr.timestamp = 2 ∧
      ∀ p ∈ changes, ∃ tc2, alook pr.changes p.1 = some tc2 ∧
        tc2.created = [] ∧
        List.Perm tc2.updated ((p.2.created ++ p.2.updated).map stripRow) ∧
        tc2.deleted = [] := by
  obtain ⟨cm2, hok, hprops⟩ := mergeAll_push_store .root
    ⟨some ⟨some 1, some nowDate, none⟩, pushDocs .root 1 changes, [], []⟩ changes rfl
    htab hdec hkeys
  have hloop : pullLoop ⟨some ⟨some 1, some nowDate, none⟩, pushDocs .root 1 changes, [], []⟩
      (changes.map Prod.fst) none 2 3 1 (seedMap (changes.map Prod.fst)) = .ok cm2 := by
    have hstep : pullLoop ⟨some ⟨some 1, some nowDate, none⟩, pushDocs .root 1 changes, [], []⟩
        (changes.map Prod.fst) none 2 3 1 (seedMap (changes.map Prod.fst)) =
        (match mergeAllTables ⟨some ⟨some 1, some nowDate, none⟩,
            pushDocs .root 1 changes, [], []⟩ .root 1 2 (changes.map Prod.fst)
            (seedMap (changes.map Prod.fst)) with
         | .error err => .error err
         | .ok cm2 =>
           match applyDeleteRecs cm2 (([] : List DeleteRecord).filter fun r =>
               decide (1 ≤ r.revision) && decide (r.revision < 2)) with
           | .error err => .error err
           | .ok cm3 => pullLoop ⟨some ⟨some 1, some nowDate, none⟩,
               pushDocs .root 1 changes, [], []⟩ (changes.map Prod.fst) none 2 2 2 cm3) := rfl
    rw [hstep, hok]
    show pullLoop ⟨some ⟨some 1, some nowDate, none⟩, pushDocs .root 1 changes, [], []⟩
      (changes.map Prod.fst) none 2 2 2 cm2 = .ok cm2
    exact pullLoop_not_lt _ _ _ _ _ _ _ (by decide)
  have hpull : pullChanges (changes.map Prod.fst)
      ⟨some ⟨some 1, some nowDate, none⟩, pushDocs .root 1 changes, [], []⟩ none =
      .ok ⟨(changes.map Prod.fst).map
        (fun t => (t, assembleTable ((alook cm2 t).getD ⟨[], []⟩))), 2⟩ := by
    have hshape : pullChanges (changes.map Prod.fst)
        ⟨some ⟨some 1, some nowDate, none⟩, pushDocs .root 1 changes, [], []⟩ none =
        (match pullLoop ⟨some ⟨some 1, some nowDate, none⟩, pushDocs .root 1 changes, [], []⟩
            (changes.map Prod.fst) none 2 3 1 (seedMap (changes.map Prod.fst)) with
         | .error e => .error e
         | .ok cm => .ok ⟨(changes.map Prod.fst).map
             (fun t => (t, assembleTable ((alook cm t).getD ⟨[], []⟩))), 2⟩) := rfl
    rw [hshape, hloop]
  refine ⟨_, hpull, rfl, ?_⟩
  intro p hp
  obtain ⟨M, halook, hperm⟩ := hprops p hp
  have hml := alook_map_self (fun t => assembleTable ((alook cm2 t).getD ⟨[], []⟩))
    (changes.map Prod.fst) p.1 (List.mem_map_of_mem Prod.fst hp)
  simp only [halook, Option.getD_some, assembleTable_no_deletes] at hml
  exact ⟨⟨[], M.map Prod.snd, []⟩, hml, rfl, hperm, rfl⟩

/-- A pull at `lastPulledAt = null` against the store left by a side-batch
revision-1 push on the empty store (one batch token, no batch deletes). -/
theorem pull_after_batch_push (token : String) (changes : Changes)
    (htab : (changes.map Prod.fst).Nodup)
    (hdec : ∀ p ∈ changes, ∀ r ∈ p.2.created ++ p.2.updated,
      decodeURIComponent r.id = some r.id)
    (hkeys : ∀ p ∈ changes,
      ((p.2.created ++ p.2.updated).map (fun r => encodeURIComponent r.id)).Nodup) :
    ∃ pr, pullChanges (changes.map Prod.fst)
        ⟨some ⟨some 1, some nowDate, some [(1, token)]⟩, pushDocs (.batch token) 1 changes,
          [(token, ⟨some 1, some nowDate, []⟩)], []⟩ none = .ok pr ∧
      pr.timestamp = 2 ∧
      ∀ p ∈ changes, ∃ tc2, alook pr.changes p.1 = some tc2 ∧
        tc2.created = [] ∧
        List.Perm tc2.updated ((p.2.created ++ p.2.updated).map stripRow) ∧
        tc2.deleted = [] := by
  obtain ⟨cm2, hok, hprops⟩ := mergeAll_push_store (.batch token)
    ⟨some ⟨some 1, some nowDate, some [(1, token)]⟩, pushDocs (.batch token) 1 changes,
      [(token, ⟨some 1, some nowDate, []⟩)], []⟩ changes rfl htab hdec hkeys
  have hbd : alook ([(token, (⟨some 1, some nowDate, []⟩ : BatchDoc))]) token =
      some ⟨some 1, some nowDate, []⟩ := by simp [alook]
  have hloop : pullLoop ⟨some ⟨some 1, some nowDate, some [(1, token)]⟩,
      pushDocs (.batch token) 1 changes, [(token, ⟨some 1, some nowDate, []⟩)], []⟩
      (changes.map Prod.fst) (some [(1, token)]) 2 3 1
      (seedMap (changes.map Prod.fst)) = .ok cm2 := by
    have hstep : pullLoop ⟨some ⟨some 1, some nowDate, some [(1, token)]⟩,
        pushDocs (.batch token) 1 changes, [(token, ⟨some 1, some nowDate, []⟩)], []⟩
        (changes.map Prod.fst) (some [(1, token)]) 2 3 1 (seedMap (changes.map Prod.fst)) =
        (match mergeAllTables ⟨some ⟨some 1, some nowDate, some [(1, token)]⟩,
            pushDocs (.batch token) 1 changes, [(token, ⟨some 1, some nowDate, []⟩)], []⟩
            (.batch token) 1 2 (changes.map Prod.fst) (seedMap (changes.map Prod.fst)) with
         | .error err => .error err
         | .ok cm2 =>
           match alook ([(token, (⟨some 1, some nowDate, []⟩ : BatchDoc))]) token with
           | none => .error .jsError
           | some bd =>
             match applyDeletes cm2 bd.deletes with
             | .error err => .error err
             | .ok cm3 => pullLoop ⟨some ⟨some 1, some nowDate, some [(1, token)]⟩,
                 pushDocs (.batch token) 1 changes,
                 [(token, ⟨some 1, some nowDate, []⟩)], []⟩
                 (changes.map Prod.fst) (some [(1, token)]) 2 2 2 cm3) := rfl
    rw [hstep, hok]
    simp only []
    rw [hbd]
    show pullLoop ⟨some ⟨some 1, some nowDate, some [(1, token)]⟩,
      pushDocs (.batch token) 1 changes, [(token, ⟨some 1, some nowDate, []⟩)], []⟩
      (changes.map Prod.fst) (some [(1, token)]) 2 2 2 cm2 = .ok cm2
    exact pullLoop_not_lt _ _ _ _ _ _ _ (by decide)
  have hpull : pullChanges (changes.map Prod.fst)
      ⟨some ⟨some 1, some nowDate, some [(1, token)]⟩, pushDocs (.batch token) 1 changes,
        [(token, ⟨some 1, some nowDate, []⟩)], []⟩ none =
      .ok ⟨(changes.map Prod.fst).map
        (fun t => (t, assembleTable ((alook cm2 t).getD ⟨[], []⟩))), 2⟩ := by
    have hshape : pullChanges (changes.map Prod.fst)
        ⟨some ⟨some 1, some nowDate, some [(1, token)]⟩, pushDocs (.batch token) 1 changes,
          [(token, ⟨some 1, some nowDate, []⟩)], []⟩ none =
        (match pullLoop ⟨some ⟨some 1, some nowDate, some [(1, token)]⟩,
            pushDocs (.batch token) 1 changes, [(token, ⟨some 1, some nowDate, []⟩)], []⟩
            (changes.map Prod.fst) (some [(1, token)]) 2 3 1
            (seedMap (changes.map Prod.fst)) with
         | .error e => .error e
         | .ok cm => .ok ⟨(changes.map Prod.fst).map
             (fun t => (t, assembleTable ((alook cm t).getD ⟨[], []⟩))), 2⟩) := rfl
    rw [hshape, hloop]
  refine ⟨_, hpull, rfl, ?_⟩
  intro p hp
  obtain ⟨M, halook, hperm⟩ := hprops p hp
  have hml := alook_map_self (fun t => assembleTable ((alook cm2 t).getD ⟨[], []⟩))
    (changes.map Prod.fst) p.1 (List.mem_map_of_mem Prod.fst hp)
  simp only [halook, Option.getD_some, assembleTable_no_deletes] at hml
  exact ⟨⟨[], M.map Prod.snd, []⟩, hml, rfl, hperm, rfl⟩

/-- **C4, counterexample to the unamended claim.**  Pushing
`C = {posts: {created: [{id "aaa"}], updated: [], deleted: ["zzz"]}}` at
`lastPulledAt = 1` against the empty store succeeds, but the subsequent
pull at `lastPulledAt = null` returns `deleted = []`, not
`C.deleted = ["zzz"]`: a delete of an id with no stored document discovers
no delete reference, so nothing records it and it does not round-trip. -/
theorem c4_roundtrip_counterexample :
    (pushChanges "tok" false emptyStore
        ⟨1, [("posts", ⟨[⟨"aaa", "d", some "created", some "x", none, none⟩], [],
          ["zzz"]⟩)]⟩).err = none ∧
    pullChanges ["posts"]
        (pushChanges "tok" false emptyStore
          ⟨1, [("posts", ⟨[⟨"aaa", "d", some "created", some "x", none, none⟩], [],
            ["zzz"]⟩)]⟩).store none =
      .ok ⟨[("posts", ⟨[], [⟨"aaa", "d", none, none, none, none⟩], []⟩)], 2⟩ := by
  decide

/-- **C4 (corrected): round-trip against the empty store.**  A push of
changeset `C` at `lastPulledAt = 1` on the empty store succeeds on either
planner path, and a subsequent pull at `lastPulledAt = null` returns
`timestamp = 2` and, for every pushed table, `created = []`, `updated` a
permutation of the stripped rows of `C.created ++ C.updated`, and
`deleted = []` — the pull does *not* return `C.deleted`, since deletes of
ids absent from the store are never recorded.  Hypotheses: distinct table
names, ids that percent-decode to themselves, and per-table distinct
encoded ids. -/
theorem c4_roundtrip_empty_store (token : String) (changes : Changes)
    (htab : (changes.map Prod.fst).Nodup)
    (hdec : ∀ p ∈ changes, ∀ r ∈ p.2.created ++ p.2.updated,
      decodeURIComponent r.id = some r.id)
    (hkeys : ∀ p ∈ changes,
      ((p.2.created ++ p.2.updated).map (fun r => encodeURIComponent r.id)).Nodup) :
    (pushChanges token false emptyStore ⟨1, changes⟩).err = none ∧
    ∃ pr, pullChanges (changes.map Prod.fst)
        (pushChanges token false emptyStore ⟨1, changes⟩).store none = .ok pr ∧
      pr.timestamp = 2 ∧
      ∀ p ∈ changes, ∃ tc2, alook pr.changes p.1 = some tc2 ∧
        tc2.created = [] ∧
        List.Perm tc2.updated ((p.2.created ++ p.2.updated).map stripRow) ∧
        tc2.deleted = [] := by
  have hdel : findDeleteRefs emptyStore changes = [] := findDeleteRefs_emptyStore changes
  have hpc : pushChanges token false emptyStore ⟨1, changes⟩ =
      if countChanges changes 0 < 500 then pushAllChanges emptyStore ⟨1, changes⟩ []
      else pushBatchedChanges token false emptyStore ⟨1, changes⟩ [] := by
    simp only [pushChanges, hdel]
    rfl
  by_cases hsize : countChanges changes 0 < 500
  · have hres : pushChanges token false emptyStore ⟨1, changes⟩ =
        { store := ⟨some ⟨some 1, some nowDate, none⟩, pushDocs .root 1 changes, [], []⟩,
          changesAfter := changes, err := none } := by
      rw [hpc, if_pos hsize, pushAll_emptyStore]
      rw [writeFold_append_docs .root 1 changes emptyStore htab hkeys (fun _ _ _ _ => rfl)]
      simp [emptyStore]
    rw [hres]
    exact ⟨rfl, pull_after_root_push changes htab hdec hkeys⟩
  · have hres : pushChanges token false emptyStore ⟨1, changes⟩ =
        { store := ⟨some ⟨some 1, some nowDate, some [(1, token)]⟩,
            pushDocs (.batch token) 1 changes, [(token, ⟨some 1, some nowDate, []⟩)], []⟩,
          changesAfter := stripWmChanges changes, err := none } := by
      rw [hpc, if_neg hsize, pushBatched_emptyStore]
      rw [writeFold_append_docs (.batch token) 1 changes emptyStore htab hkeys
        (fun _ _ _ _ => rfl)]
      simp [emptyStore]
    rw [hres]
    exact ⟨rfl, pull_after_batch_push token changes htab hdec hkeys⟩

/-- A concrete two-table changeset with url-unsafe ids, pushed and pulled
by the witness below. -/
def c4wChanges : Changes :=
  [("posts", ⟨[⟨"a/1", "d1", some "created", some "x", none, none⟩],
     [⟨"b:2", "d2", none, none, some "updated", none⟩], []⟩),
   ("comments", ⟨[], [⟨"c#3", "d3", none, none, none, none⟩], ["gone"]⟩)]

/-- Witness for `c4_roundtrip_empty_store` at `c4wChanges`. -/
theorem c4_roundtrip_empty_store_witness :
    ((c4wChanges.map Prod.fst).Nodup ∧
     (∀ p ∈ c4wChanges, ∀ r ∈ p.2.created ++ p.2.updated,
       decodeURIComponent r.id = some r.id) ∧
     (∀ p ∈ c4wChanges,
       ((p.2.created ++ p.2.updated).map (fun r => encodeURIComponent r.id)).Nodup)) ∧
    ((pushChanges "tok" false emptyStore ⟨1, c4wChanges⟩).err = none ∧
     ∃ pr, pullChanges (c4wChanges.map Prod.fst)
         (pushChanges "tok" false emptyStore ⟨1, c4wChanges⟩).store none = .ok pr ∧
       pr.timestamp = 2 ∧
       ∀ p ∈ c4wChanges, ∃ tc2, alook pr.changes p.1 = some tc2 ∧
         tc2.created = [] ∧
         List.Perm tc2.updated ((p.2.created ++ p.2.updated).map stripRow) ∧
         tc2.deleted = []) :=
  ⟨⟨by decide, by decide, by decide⟩,
    c4_roundtrip_empty_store "tok" c4wChanges (by decide) (by decide) (by decide)⟩

end MelonFire
